import Mathlib

/-!
Verification of the blang/vfs repository: the generic directory-tree walker
(`Walk`/`walk` in the root package), the in-memory buffer (`memfs.Buf`) and the
in-memory filesystem (`memfs.memFS`).

Go strings are byte slices; we model them as `List Nat` (`GoStr`), and Go's
bytewise string comparison as lexicographic comparison of byte lists.
-/

abbrev GoStr := List Nat

/-- Go's `s < t` on strings: bytewise lexicographic strict order. -/
def strLt : GoStr → GoStr → Bool
  | [], [] => false
  | [], _ :: _ => true
  | _ :: _, [] => false
  | a :: as, b :: bs => if a < b then true else if a = b then strLt as bs else false

/-- Bytewise `≤` on byte strings (`¬ t < s`). -/
def strLe (s t : GoStr) : Bool := !(strLt t s)

theorem strLt_irrefl (s : GoStr) : strLt s s = false := by
  induction s with
  | nil => rfl
  | cons a as ih => simp [strLt, ih]

theorem strLe_refl (s : GoStr) : strLe s s = true := by
  simp [strLe, strLt_irrefl]

theorem strLt_cons_iff {a b : Nat} {as bs : GoStr} :
    strLt (a :: as) (b :: bs) = true ↔ (a < b ∨ (a = b ∧ strLt as bs = true)) := by
  simp only [strLt]
  by_cases h1 : a < b <;> by_cases h2 : a = b <;> simp [h1, h2]

theorem strLt_trans : ∀ {a b c : GoStr},
    strLt a b = true → strLt b c = true → strLt a c = true
  | [], _ :: _, _ :: _, _, _ => rfl
  | a :: as, b :: bs, c :: cs, hab, hbc => by
    rcases strLt_cons_iff.mp hab with h1 | ⟨rfl, h1⟩
    · rcases strLt_cons_iff.mp hbc with h2 | ⟨rfl, h2⟩
      · exact strLt_cons_iff.mpr (Or.inl (Nat.lt_trans h1 h2))
      · exact strLt_cons_iff.mpr (Or.inl h1)
    · rcases strLt_cons_iff.mp hbc with h2 | ⟨rfl, h2⟩
      · exact strLt_cons_iff.mpr (Or.inl h2)
      · exact strLt_cons_iff.mpr (Or.inr ⟨rfl, strLt_trans h1 h2⟩)

theorem strLt_total : ∀ (a b : GoStr),
    strLt a b = true ∨ a = b ∨ strLt b a = true
  | [], [] => Or.inr (Or.inl rfl)
  | [], _ :: _ => Or.inl rfl
  | _ :: _, [] => Or.inr (Or.inr rfl)
  | a :: as, b :: bs => by
    rcases Nat.lt_trichotomy a b with h | h | h
    · exact Or.inl (by simp [strLt, h])
    · subst h
      rcases strLt_total as bs with h' | h' | h'
      · exact Or.inl (by simp [strLt, h'])
      · exact Or.inr (Or.inl (by rw [h']))
      · exact Or.inr (Or.inr (by simp [strLt, h']))
    · exact Or.inr (Or.inr (by simp [strLt, h]))

theorem strLe_total (a b : GoStr) : strLe a b = true ∨ strLe b a = true := by
  rcases strLt_total a b with h | h | h
  · left
    simp only [strLe, Bool.not_eq_true']
    by_contra hc
    simp only [Bool.not_eq_false] at hc
    have := strLt_trans h hc
    simp [strLt_irrefl] at this
  · subst h
    left
    exact strLe_refl a
  · right
    simp only [strLe, Bool.not_eq_true']
    by_contra hc
    simp only [Bool.not_eq_false] at hc
    have := strLt_trans h hc
    simp [strLt_irrefl] at this

theorem strLe_trans {a b c : GoStr} (hab : strLe a b = true) (hbc : strLe b c = true) :
    strLe a c = true := by
  simp only [strLe, Bool.not_eq_true'] at hab hbc ⊢
  by_contra hc
  simp only [Bool.not_eq_false] at hc
  rcases strLt_total b c with h | h | h
  · have := strLt_trans h hc
    rw [this] at hab
    exact Bool.noConfusion hab
  · subst h
    rw [hc] at hab
    exact Bool.noConfusion hab
  · rw [h] at hbc
    exact Bool.noConfusion hbc

/-- Insertion into a list sorted by `strLe` on a key (models one step of
Go's `sort` on name keys; with unique keys the sorted result is unique,
so the choice of algorithm is immaterial). -/
def insortBy (key : α → GoStr) (x : α) : List α → List α
  | [] => [x]
  | y :: ys => if strLe (key x) (key y) then x :: y :: ys else y :: insortBy key x ys

/-- Insertion sort by a `GoStr` key: models Go's `sort.Strings` /
`sort.Sort(byName(..))` (ascending bytewise order). -/
def sortByKey (key : α → GoStr) : List α → List α
  | [] => []
  | x :: xs => insortBy key x (sortByKey key xs)

theorem insortBy_perm (key : α → GoStr) (x : α) (l : List α) :
    List.Perm (insortBy key x l) (x :: l) := by
  induction l with
  | nil => exact List.Perm.refl _
  | cons y ys ih =>
    simp only [insortBy]
    by_cases h : strLe (key x) (key y) = true
    · simp [h]
    · simp only [h, if_false]
      exact List.Perm.trans (List.Perm.cons y ih) (List.Perm.swap x y ys)

theorem sortByKey_perm (key : α → GoStr) (l : List α) :
    List.Perm (sortByKey key l) l := by
  induction l with
  | nil => exact List.Perm.refl _
  | cons x xs ih =>
    exact List.Perm.trans (insortBy_perm key x (sortByKey key xs)) (List.Perm.cons x ih)

theorem insortBy_pairwise (key : α → GoStr) (x : α) (l : List α)
    (h : List.Pairwise (fun a b => strLe (key a) (key b) = true) l) :
    List.Pairwise (fun a b => strLe (key a) (key b) = true) (insortBy key x l) := by
  induction l with
  | nil => simp [insortBy]
  | cons y ys ih =>
    simp only [insortBy]
    rcases List.pairwise_cons.mp h with ⟨hy, hys⟩
    by_cases hx : strLe (key x) (key y) = true
    · simp only [hx, if_true]
      refine List.pairwise_cons.mpr ⟨?_, h⟩
      intro z hz
      rcases List.mem_cons.mp hz with hz | hz
      · subst hz; exact hx
      · exact strLe_trans hx (hy z hz)
    · simp only [hx, if_false]
      refine List.pairwise_cons.mpr ⟨?_, ih hys⟩
      intro z hz
      have hz' := (insortBy_perm key x ys).mem_iff.mp hz
      rcases List.mem_cons.mp hz' with hz'' | hz''
      · rw [hz'']
        rcases strLe_total (key x) (key y) with h' | h'
        · exact absurd h' hx
        · exact h'
      · exact hy z hz''

theorem sortByKey_pairwise (key : α → GoStr) (l : List α) :
    List.Pairwise (fun a b => strLe (key a) (key b) = true) (sortByKey key l) := by
  induction l with
  | nil => simp [sortByKey]
  | cons x xs ih => exact insortBy_pairwise key x (sortByKey key xs) ih

theorem insortBy_map_key (key : α → GoStr) (x : α) (l : List α) :
    (insortBy key x l).map key = insortBy id (key x) (l.map key) := by
  induction l with
  | nil => simp [insortBy]
  | cons y ys ih =>
    simp only [insortBy, List.map_cons, id]
    by_cases h : strLe (key x) (key y) = true
    · simp [h]
    · simp [h, ih]

theorem sortByKey_map_key (key : α → GoStr) (l : List α) :
    (sortByKey key l).map key = sortByKey id (l.map key) := by
  induction l with
  | nil => simp [sortByKey]
  | cons x xs ih =>
    simp only [sortByKey, List.map_cons]
    rw [insortBy_map_key, ih]

theorem mem_sortByKey {key : α → GoStr} {l : List α} {x : α} :
    x ∈ sortByKey key l ↔ x ∈ l := (sortByKey_perm key l).mem_iff

/-!
## The directory-tree walker (root package, `Walk`/`walk`/`readDirNames`)

A filesystem tree is modelled as a nested tree of named entries; a directory's
children are kept in an `EntryList` (the order models Go's unordered map
iteration: `readDirNames` sorts the names before visiting, exactly as the
source does).
-/

/-- Path separator byte `'/'` (`fs.PathSeparator()`). -/
def sepB : Nat := 47

mutual
inductive Entry where
  | file (name : GoStr)
  | dir (name : GoStr) (children : EntryList)
inductive EntryList where
  | enil
  | econs (e : Entry) (rest : EntryList)
end

def Entry.name : Entry → GoStr
  | .file n => n
  | .dir n _ => n

def Entry.isDir : Entry → Bool
  | .file _ => false
  | .dir _ _ => true

mutual
def Entry.esize : Entry → Nat
  | .file _ => 1
  | .dir _ cs => 1 + cs.lsize
def EntryList.lsize : EntryList → Nat
  | .enil => 0
  | .econs e rest => e.esize + rest.lsize
end

def EntryList.toList : EntryList → List Entry
  | .enil => []
  | .econs e rest => e :: rest.toList

/-- Sibling-name uniqueness check for one level. -/
def nodupKeys : List GoStr → Bool
  | [] => true
  | n :: ns => !(ns.any (fun m => m == n)) && nodupKeys ns

mutual
/-- Well-formedness: at every directory the children carry pairwise distinct
names (guaranteed in the source because children live in a Go map). -/
def Entry.wfE : Entry → Bool
  | .file _ => true
  | .dir _ cs => nodupKeys (cs.toList.map Entry.name) && cs.wfL
def EntryList.wfL : EntryList → Bool
  | .enil => true
  | .econs e rest => e.wfE && rest.wfL
end

/-- Path of a child named `n` under directory path `p`
(`strings.Join([]string{path, name}, "/")` in `walk`). -/
def childPath (p n : GoStr) : GoStr := p ++ sepB :: n

mutual
/-- No file-typed entry of the tree rooted at `path` sits at path `q`. -/
def Entry.noFileAt (q path : GoStr) : Entry → Bool
  | .file _ => !(path = q : Bool)
  | .dir _ cs => cs.noFileAtL q path
def EntryList.noFileAtL (q ppath : GoStr) : EntryList → Bool
  | .enil => true
  | .econs c rest => c.noFileAt q (childPath ppath c.name) && rest.noFileAtL q ppath
end

mutual
/-- No directory-typed entry of the tree rooted at `path` sits at path `q`. -/
def Entry.noDirAt (q path : GoStr) : Entry → Bool
  | .file _ => true
  | .dir _ cs => !(path = q : Bool) && cs.noDirAtL q path
def EntryList.noDirAtL (q ppath : GoStr) : EntryList → Bool
  | .enil => true
  | .econs c rest => c.noDirAt q (childPath ppath c.name) && rest.noDirAtL q ppath
end

mutual
/-- No entry at all of the tree rooted at `path` sits at path `q`. -/
def Entry.noPathAt (q path : GoStr) : Entry → Bool
  | .file _ => !(path = q : Bool)
  | .dir _ cs => !(path = q : Bool) && cs.noPathAtL q path
def EntryList.noPathAtL (q ppath : GoStr) : EntryList → Bool
  | .enil => true
  | .econs c rest => c.noPathAt q (childPath ppath c.name) && rest.noPathAtL q ppath
end

mutual
/-- The paths of all entries of the tree, parent first, children in the order
they are stored (used only to state "each entry is visited exactly once"). -/
def Entry.allPaths (path : GoStr) : Entry → List GoStr
  | .file _ => [path]
  | .dir _ cs => path :: cs.allPathsL path
def EntryList.allPathsL (ppath : GoStr) : EntryList → List GoStr
  | .enil => []
  | .econs c rest => c.allPaths (childPath ppath c.name) ++ rest.allPathsL ppath
end

theorem esize_pos (e : Entry) : 1 ≤ e.esize := by
  cases e with
  | file n => simp [Entry.esize]
  | dir n cs => simp [Entry.esize]

theorem lsize_toList : ∀ (l : EntryList),
    (l.toList.map Entry.esize).sum = l.lsize
  | .enil => by simp [EntryList.toList, EntryList.lsize]
  | .econs e rest => by
    simp [EntryList.toList, EntryList.lsize, lsize_toList rest]

theorem esize_le_of_mem {c : Entry} {l : List Entry} (h : c ∈ l) :
    c.esize ≤ (l.map Entry.esize).sum := by
  induction l with
  | nil => cases h
  | cons x xs ih =>
    rcases List.mem_cons.mp h with h' | h'
    · rw [h']; simp
    · have := ih h'
      simp only [List.map_cons, List.sum_cons]
      omega

/-- First entry in the list carrying the given name (models the unique Go map
entry reached through `fs.Lstat` of the child path). -/
def lookupChild (nm : GoStr) : List Entry → Option Entry
  | [] => none
  | c :: cs => if c.name = nm then some c else lookupChild nm cs

theorem lookupChild_mem {nm : GoStr} : ∀ {l : List Entry} {c : Entry},
    lookupChild nm l = some c → c ∈ l
  | x :: xs, c, h => by
    simp only [lookupChild] at h
    by_cases hx : x.name = nm
    · simp only [hx, if_true, Option.some.injEq] at h
      exact h ▸ List.mem_cons_self x xs
    · simp only [hx, if_false] at h
      exact List.mem_cons_of_mem x (lookupChild_mem h)

theorem lookupChild_self {l : List Entry} (hnd : nodupKeys (l.map Entry.name) = true)
    {c : Entry} (hc : c ∈ l) : lookupChild c.name l = some c := by
  induction l with
  | nil => cases hc
  | cons x xs ih =>
    simp only [List.map_cons, nodupKeys, Bool.and_eq_true, Bool.not_eq_true',
      List.any_eq_false, beq_iff_eq] at hnd
    rcases List.mem_cons.mp hc with h' | h'
    · rw [h']
      simp [lookupChild]
    · have hne : x.name ≠ c.name := by
        intro hEq
        exact hnd.1 c.name (List.mem_map_of_mem Entry.name h') hEq.symm
      simp only [lookupChild, hne, if_false]
      exact ih hnd.2 h'

/-- Result of a walk callback: `none` models `nil`, `some skipDir` models
`filepath.SkipDir`, `some fault` any other error. -/
inductive WalkErr where
  | skipDir
  | fault
deriving DecidableEq

/-- A walk callback. In this pure model the tree is total, so `walkFn` never
receives a lookup error, and the file-info argument carries no information the
callbacks of the claims use; the callback therefore takes just the path. -/
abbrev WalkCallback := GoStr → Option WalkErr

mutual
/-- `walk` from the source: files get one callback invocation; directories
list and sort their child names (`readDirNames`), invoke the callback on the
directory itself, then recurse per sorted name via a child lookup (`Lstat`),
pruning on `SkipDir` exactly as the Go code does. Returns the visited paths
in order and the terminal result. -/
def walkE (f : WalkCallback) (path : GoStr) : Entry → List GoStr × Option WalkErr
  | .file _ => ([path], f path)
  | .dir _ cs =>
    let names := sortByKey id (cs.toList.map Entry.name)
    match f path with
    | some e1 => ([path], some e1)
    | none =>
      let r := walkL f path cs.toList names
      (path :: r.1, r.2)
  termination_by e => (e.esize, 0)
  decreasing_by
  · apply Prod.Lex.left
    rw [lsize_toList]
    simp only [Entry.esize]
    omega
/-- The `for _, name := range names` loop body of `walk`. -/
def walkL (f : WalkCallback) (path : GoStr) (cs : List Entry) :
    List GoStr → List GoStr × Option WalkErr
  | [] => ([], none)
  | nm :: rest =>
    let filename := childPath path nm
    match hl : lookupChild nm cs with
    | none =>
      match f filename with
      | none =>
        let r := walkL f path cs rest
        (filename :: r.1, r.2)
      | some .skipDir =>
        let r := walkL f path cs rest
        (filename :: r.1, r.2)
      | some .fault => ([filename], some .fault)
    | some c =>
      let r := walkE f filename c
      match r.2 with
      | some er =>
        if c.isDir && (er == WalkErr.skipDir) then
          let r2 := walkL f path cs rest
          (r.1 ++ r2.1, r2.2)
        else (r.1, some er)
      | none =>
        let r2 := walkL f path cs rest
        (r.1 ++ r2.1, r2.2)
  termination_by names => ((cs.map Entry.esize).sum, names.length)
  decreasing_by
  all_goals
    first
    | (apply Prod.Lex.right
       simp)
    | (have hle := esize_le_of_mem (lookupChild_mem hl)
       rcases Nat.lt_or_ge c.esize ((cs.map Entry.esize).sum) with h | h
       · exact Prod.Lex.left _ _ h
       · have heq : c.esize = (cs.map Entry.esize).sum := Nat.le_antisymm hle h
         rw [heq]
         apply Prod.Lex.right
         simp)
end

/-- `Walk` from the source: walks the tree rooted at `root` and converts a
terminal `filepath.SkipDir` into a clean completion. In this pure model the
initial `fs.Lstat(root)` always succeeds (the tree at `root` is given), so the
error branch of `Walk` is not reachable. -/
def Walk (f : WalkCallback) (root : GoStr) (t : Entry) : List GoStr × Option WalkErr :=
  let r := walkE f root t
  (r.1, if r.2 = some WalkErr.skipDir then none else r.2)

/-- The callback that always returns `nil`. -/
def alwaysNil : WalkCallback := fun _ => none

/-- The callback that returns `filepath.SkipDir` exactly on path `q`. -/
def skipOn (q : GoStr) : WalkCallback :=
  fun p => if p = q then some WalkErr.skipDir else none


theorem sum_esize_sortByKey (l : List Entry) :
    ((sortByKey Entry.name l).map Entry.esize).sum = (l.map Entry.esize).sum :=
  List.Perm.sum_eq ((sortByKey_perm Entry.name l).map _)

theorem lex_esize_head (c : Entry) (rest : List Entry) :
    Prod.Lex (· < ·) (· < ·) (c.esize, 0)
      ((List.map Entry.esize (c :: rest)).sum, (c :: rest).length) := by
  rcases Nat.lt_or_ge c.esize ((List.map Entry.esize (c :: rest)).sum) with h | h
  · exact Prod.Lex.left _ _ h
  · have h1 : c.esize ≤ (List.map Entry.esize (c :: rest)).sum := by
      simp only [List.map_cons, List.sum_cons]
      omega
    have heq : c.esize = (List.map Entry.esize (c :: rest)).sum := Nat.le_antisymm h1 h
    rw [heq]
    exact Prod.Lex.right _ (by simp)

theorem lex_esize_tail (c : Entry) (rest : List Entry) :
    Prod.Lex (· < ·) (· < ·) ((List.map Entry.esize rest).sum, rest.length)
      ((List.map Entry.esize (c :: rest)).sum, (c :: rest).length) := by
  apply Prod.Lex.left
  have := esize_pos c
  simp only [List.map_cons, List.sum_cons]
  omega

mutual
/-- Reference traversal following the spec's words: every entry's path is
emitted exactly once, the root first, each directory's path before its
children's, and the children of a directory in ascending lexical order of
their names. -/
def specTraversal (path : GoStr) (e : Entry) : List GoStr :=
  match e with
  | .file _ => [path]
  | .dir _ cs => path :: specList path (sortByKey Entry.name cs.toList)
  termination_by (e.esize, 0)
  decreasing_by
  · apply Prod.Lex.left
    rw [sum_esize_sortByKey, lsize_toList]
    simp only [Entry.esize]
    omega
/-- One subtree traversal per child, in list order. -/
def specList (path : GoStr) (l : List Entry) : List GoStr :=
  match l with
  | [] => []
  | c :: rest => specTraversal (childPath path c.name) c ++ specList path rest
  termination_by ((l.map Entry.esize).sum, l.length)
  decreasing_by
  · exact lex_esize_head _ _
  · exact lex_esize_tail _ _
end

mutual
/-- The traversal the spec prescribes when the callback answers `SkipDir`
exactly at directory path `q`: identical to `specTraversal`, except that at
`q` the directory itself is still visited but none of its children are. -/
def prunedD (q path : GoStr) (e : Entry) : List GoStr :=
  match e with
  | .file _ => [path]
  | .dir _ cs =>
    if path = q then [path]
    else path :: prunedDList q path (sortByKey Entry.name cs.toList)
  termination_by (e.esize, 0)
  decreasing_by
  · apply Prod.Lex.left
    rw [sum_esize_sortByKey, lsize_toList]
    simp only [Entry.esize]
    omega
def prunedDList (q path : GoStr) (l : List Entry) : List GoStr :=
  match l with
  | [] => []
  | c :: rest => prunedD q (childPath path c.name) c ++ prunedDList q path rest
  termination_by ((l.map Entry.esize).sum, l.length)
  decreasing_by
  · exact lex_esize_head _ _
  · exact lex_esize_tail _ _
end

mutual
/-- The traversal the spec prescribes when the callback answers `SkipDir`
exactly at file path `q`: the file at `q` is still visited, its remaining
(not yet visited) siblings are dropped, and everything else is traversed as
in `specTraversal`. -/
def prunedF (q path : GoStr) (e : Entry) : List GoStr :=
  match e with
  | .file _ => [path]
  | .dir _ cs => path :: prunedFList q path (sortByKey Entry.name cs.toList)
  termination_by (e.esize, 0)
  decreasing_by
  · apply Prod.Lex.left
    rw [sum_esize_sortByKey, lsize_toList]
    simp only [Entry.esize]
    omega
def prunedFList (q path : GoStr) (l : List Entry) : List GoStr :=
  match l with
  | [] => []
  | c :: rest =>
    if !c.isDir && (childPath path c.name == q) then [childPath path c.name]
    else prunedF q (childPath path c.name) c ++ prunedFList q path rest
  termination_by ((l.map Entry.esize).sum, l.length)
  decreasing_by
  · exact lex_esize_head _ _
  · exact lex_esize_tail _ _
end

/-- Whether the branch rooted at `path` makes `walk` return `SkipDir` to its
caller under the `skipOn q` callback: the entry is itself the file at `q`, or
it is a directory with a direct file child at `q` (deeper hits are swallowed at
their own parent directory). -/
def hitsF (q path : GoStr) (e : Entry) : Bool :=
  match e with
  | .file _ => path == q
  | .dir _ cs => cs.toList.any (fun c => !c.isDir && (childPath path c.name == q))

theorem wfL_mem : ∀ {l : EntryList}, l.wfL = true → ∀ c ∈ l.toList, c.wfE = true
  | .econs e rest, h, c, hc => by
    simp only [EntryList.wfL, Bool.and_eq_true] at h
    simp only [EntryList.toList] at hc
    rcases List.mem_cons.mp hc with h' | h'
    · rw [h']; exact h.1
    · exact wfL_mem h.2 c h'

theorem noFileAtL_mem : ∀ {l : EntryList}, ∀ {q p : GoStr}, l.noFileAtL q p = true →
    ∀ c ∈ l.toList, c.noFileAt q (childPath p c.name) = true
  | .econs e rest, q, p, h, c, hc => by
    simp only [EntryList.noFileAtL, Bool.and_eq_true] at h
    simp only [EntryList.toList] at hc
    rcases List.mem_cons.mp hc with h' | h'
    · rw [h']; exact h.1
    · exact noFileAtL_mem h.2 c h'

theorem noDirAtL_mem : ∀ {l : EntryList}, ∀ {q p : GoStr}, l.noDirAtL q p = true →
    ∀ c ∈ l.toList, c.noDirAt q (childPath p c.name) = true
  | .econs e rest, q, p, h, c, hc => by
    simp only [EntryList.noDirAtL, Bool.and_eq_true] at h
    simp only [EntryList.toList] at hc
    rcases List.mem_cons.mp hc with h' | h'
    · rw [h']; exact h.1
    · exact noDirAtL_mem h.2 c h'

theorem noPathAtL_mem : ∀ {l : EntryList}, ∀ {q p : GoStr}, l.noPathAtL q p = true →
    ∀ c ∈ l.toList, c.noPathAt q (childPath p c.name) = true
  | .econs e rest, q, p, h, c, hc => by
    simp only [EntryList.noPathAtL, Bool.and_eq_true] at h
    simp only [EntryList.toList] at hc
    rcases List.mem_cons.mp hc with h' | h'
    · rw [h']; exact h.1
    · exact noPathAtL_mem h.2 c h'

/-- The loop of `walk` under the always-`nil` callback: with unique sibling
names, iterating the names of `ds` and looking each up in `cs` visits exactly
the subtrees of `ds` in order. -/
theorem walkL_alwaysNil (path : GoStr) (cs : List Entry)
    (hnd : nodupKeys (cs.map Entry.name) = true) :
    ∀ (ds : List Entry), (∀ d ∈ ds, d ∈ cs) →
    (∀ d ∈ ds, walkE alwaysNil (childPath path d.name) d =
      (specTraversal (childPath path d.name) d, none)) →
    walkL alwaysNil path cs (ds.map Entry.name) = (specList path ds, none) := by
  intro ds
  induction ds with
  | nil =>
    intro _ _
    simp [walkL, specList]
  | cons d ds' ih =>
    intro hsub hIH
    have hd : d ∈ cs := hsub d (List.mem_cons_self d ds')
    have hlook : lookupChild d.name cs = some d := lookupChild_self hnd hd
    have hrec := hIH d (List.mem_cons_self d ds')
    have hrest := ih (fun x hx => hsub x (List.mem_cons_of_mem d hx))
      (fun x hx => hIH x (List.mem_cons_of_mem d hx))
    simp only [List.map_cons, walkL]
    split
    · rename_i heq
      rw [hlook] at heq
      exact Option.noConfusion heq
    · rename_i c heq
      rw [hlook] at heq
      injection heq with hdc
      subst hdc
      rw [hrec]
      simp [hrest, specList]

/-- `walk` under the always-`nil` callback produces exactly the lexical
preorder traversal `specTraversal` and no error. -/
theorem walkE_alwaysNil (e : Entry) :
    ∀ (path : GoStr), e.wfE = true →
    walkE alwaysNil path e = (specTraversal path e, none) := by
  induction e using Entry.rec
    (motive_2 := fun l => ∀ c ∈ l.toList, ∀ (path : GoStr), c.wfE = true →
      walkE alwaysNil path c = (specTraversal path c, none)) with
  | file n =>
    intro path _
    simp [walkE, specTraversal, alwaysNil]
  | dir n cs ih =>
    intro path hwf
    simp only [Entry.wfE, Bool.and_eq_true] at hwf
    have hnames : sortByKey id (cs.toList.map Entry.name) =
        (sortByKey Entry.name cs.toList).map Entry.name :=
      (sortByKey_map_key Entry.name cs.toList).symm
    have hloop := walkL_alwaysNil path cs.toList hwf.1 (sortByKey Entry.name cs.toList)
      (fun d hd => mem_sortByKey.mp hd)
      (fun d hd => ih d (mem_sortByKey.mp hd) (childPath path d.name)
        (wfL_mem hwf.2 d (mem_sortByKey.mp hd)))
    simp only [walkE, alwaysNil, hnames, hloop, specTraversal]
  | enil =>
    rename_i c hmem path hwf
    simp [EntryList.toList] at hmem
  | econs e rest ihe ihrest =>
    rename_i c hc path hwf
    simp only [EntryList.toList] at hc
    rcases List.mem_cons.mp hc with h' | h'
    · rw [h']
      exact ihe path (h' ▸ hwf)
    · exact ihrest c h' path hwf

theorem specList_perm (path : GoStr) {l1 l2 : List Entry} (h : List.Perm l1 l2) :
    List.Perm (specList path l1) (specList path l2) := by
  induction h with
  | nil => simp [specList]
  | cons x _ ih =>
    simp only [specList]
    exact ih.append_left _
  | swap x y l =>
    simp only [specList]
    rw [← List.append_assoc, ← List.append_assoc]
    exact List.Perm.append_right _ List.perm_append_comm
  | trans _ _ ih1 ih2 => exact ih1.trans ih2

/-- The reference traversal visits exactly the paths of the tree's entries,
each once (as a multiset). -/
theorem spec_perm_allPaths (e : Entry) :
    ∀ (path : GoStr), List.Perm (specTraversal path e) (e.allPaths path) := by
  induction e using Entry.rec
    (motive_2 := fun l => ∀ (path : GoStr),
      List.Perm (specList path l.toList) (l.allPathsL path)) with
  | file n =>
    intro path
    simp [specTraversal, Entry.allPaths]
  | dir n cs ih =>
    intro path
    simp only [specTraversal, Entry.allPaths]
    refine List.Perm.cons path ?_
    exact (specList_perm path (sortByKey_perm Entry.name cs.toList)).trans (ih path)
  | enil =>
    rename_i path
    simp [EntryList.toList, specList, EntryList.allPathsL]
  | econs e rest ihe ihrest =>
    rename_i path
    simp only [EntryList.toList, specList, EntryList.allPathsL]
    exact List.Perm.append (ihe _) (ihrest _)

/-- C1: with the always-`nil` callback, `Walk` finishes cleanly and invokes the
callback on every entry exactly once (the visit list is a permutation of the
entry-path list), on the root first (it is the head of the visit list), on each
directory before any of its children and on the children of each directory in
ascending lexical (bytewise) order of their names: the visit list is exactly
`specTraversal`, which emits a directory's path strictly before the traversals
of its children taken in `sortByKey` order, an order that is pairwise `strLe`.
Sibling names are distinct (`wfE`) because children live in a Go map. -/
theorem c1_walk_lexical_preorder (t : Entry) (root : GoStr) (hwf : t.wfE = true) :
    Walk alwaysNil root t = (specTraversal root t, none)
    ∧ (specTraversal root t).head? = some root
    ∧ List.Perm (specTraversal root t) (t.allPaths root)
    ∧ ∀ (l : List Entry),
        List.Pairwise (fun a b => strLe a.name b.name = true) (sortByKey Entry.name l) := by
  refine ⟨?_, ?_, spec_perm_allPaths t root, fun l => sortByKey_pairwise Entry.name l⟩
  · have h := walkE_alwaysNil t root hwf
    simp [Walk, h]
  · cases t with
    | file n => simp [specTraversal]
    | dir n cs => simp [specTraversal]

/-- The tree `root/{a, b/{}, c, d/{x, y/{}, z/{u, v}}}` from the spec's walk
property, with sibling lists deliberately out of order (Go map iteration order
is arbitrary); names are single bytes, the root path is the byte string "t". -/
def testdataTree : Entry :=
  .dir [116] (.econs (.dir [100]
      (.econs (.dir [122] (.econs (.file [118]) (.econs (.file [117]) .enil)))
        (.econs (.file [120]) (.econs (.dir [121] .enil) .enil))))
    (.econs (.file [99]) (.econs (.dir [98] .enil) (.econs (.file [97]) .enil))))

theorem c1_walk_lexical_preorder_witness :
    testdataTree.wfE = true
    ∧ (Walk alwaysNil [116] testdataTree = (specTraversal [116] testdataTree, none)
       ∧ (specTraversal [116] testdataTree).head? = some [116]
       ∧ List.Perm (specTraversal [116] testdataTree) (testdataTree.allPaths [116])
       ∧ ∀ (l : List Entry),
           List.Pairwise (fun a b => strLe a.name b.name = true) (sortByKey Entry.name l)) :=
  ⟨by decide, c1_walk_lexical_preorder testdataTree [116] (by decide)⟩

/-- The loop of `walk` under the `skipOn q` callback when `q` is never a file
path: every child iteration either completes or has its `SkipDir` swallowed
(directory children), so the loop completes cleanly with the pruned visits. -/
theorem walkL_skipOnD (q path : GoStr) (cs : List Entry)
    (hnd : nodupKeys (cs.map Entry.name) = true) :
    ∀ (ds : List Entry), (∀ d ∈ ds, d ∈ cs) →
    (∀ d ∈ ds, walkE (skipOn q) (childPath path d.name) d =
      (prunedD q (childPath path d.name) d,
       if childPath path d.name = q ∧ d.isDir = true then some WalkErr.skipDir else none)) →
    walkL (skipOn q) path cs (ds.map Entry.name) = (prunedDList q path ds, none) := by
  intro ds
  induction ds with
  | nil =>
    intro _ _
    simp [walkL, prunedDList]
  | cons d ds' ih =>
    intro hsub hIH
    have hlook := lookupChild_self hnd (hsub d (List.mem_cons_self d ds'))
    have hrec := hIH d (List.mem_cons_self d ds')
    have hrest := ih (fun x hx => hsub x (List.mem_cons_of_mem d hx))
      (fun x hx => hIH x (List.mem_cons_of_mem d hx))
    simp only [List.map_cons, walkL]
    split
    · rename_i heq
      rw [hlook] at heq
      exact Option.noConfusion heq
    · rename_i c heq
      rw [hlook] at heq
      injection heq with hdc
      subst hdc
      rw [hrec]
      by_cases hcond : childPath path d.name = q ∧ d.isDir = true
      · have hif : (if childPath path d.name = q ∧ d.isDir = true
            then some WalkErr.skipDir else none) = some WalkErr.skipDir := if_pos hcond
        rw [hif]
        simp [hcond.2, hrest, prunedDList]
      · simp only [if_neg hcond]
        simp [hrest, prunedDList]

/-- `walk` under `skipOn q`, when no file of the tree sits at path `q`:
the visits are the `prunedD` traversal, and the call reports `SkipDir` to its
caller exactly when the walked entry is itself the directory at `q`. -/
theorem walkE_skipOnD (q : GoStr) (e : Entry) :
    ∀ (path : GoStr), e.wfE = true → e.noFileAt q path = true →
    walkE (skipOn q) path e =
      (prunedD q path e,
       if path = q ∧ e.isDir = true then some WalkErr.skipDir else none) := by
  induction e using Entry.rec
    (motive_2 := fun l => ∀ c ∈ l.toList, ∀ (p : GoStr),
      c.wfE = true → c.noFileAt q p = true →
      walkE (skipOn q) p c =
        (prunedD q p c,
         if p = q ∧ c.isDir = true then some WalkErr.skipDir else none)) with
  | file n =>
    intro path _ hnf
    simp only [Entry.noFileAt, Bool.not_eq_true', decide_eq_false_iff_not] at hnf
    simp [walkE, skipOn, prunedD, Entry.isDir, hnf]
  | dir n cs ih =>
    intro path hwf hnf
    simp only [Entry.wfE, Bool.and_eq_true] at hwf
    simp only [Entry.noFileAt] at hnf
    by_cases hq : path = q
    · subst hq
      simp [walkE, skipOn, prunedD, Entry.isDir]
    · have hnames : sortByKey id (cs.toList.map Entry.name) =
          (sortByKey Entry.name cs.toList).map Entry.name :=
        (sortByKey_map_key Entry.name cs.toList).symm
      have hloop := walkL_skipOnD q path cs.toList hwf.1 (sortByKey Entry.name cs.toList)
        (fun d hd => mem_sortByKey.mp hd)
        (fun d hd => ih d (mem_sortByKey.mp hd) (childPath path d.name)
          (wfL_mem hwf.2 d (mem_sortByKey.mp hd))
          (noFileAtL_mem hnf d (mem_sortByKey.mp hd)))
      simp only [walkE, skipOn, if_neg hq, hnames, hloop, prunedD, Entry.isDir]
      simp [hq]
  | enil =>
    rename_i c hmem p hwf hnf
    simp [EntryList.toList] at hmem
  | econs e rest ihe ihrest =>
    rename_i c hc p hwf hnf
    simp only [EntryList.toList] at hc
    rcases List.mem_cons.mp hc with h' | h'
    · rw [h']
      exact ihe p (h' ▸ hwf) (h' ▸ hnf)
    · exact ihrest c h' p hwf hnf

/-- A pruned-at-`q` traversal of a subtree that holds no entry at path `q` is
the full reference traversal: pruning affects nothing outside `q`'s subtree. -/
theorem prunedD_eq_spec (q : GoStr) (e : Entry) :
    ∀ (path : GoStr), e.noPathAt q path = true →
    prunedD q path e = specTraversal path e := by
  induction e using Entry.rec
    (motive_2 := fun l => ∀ c ∈ l.toList, ∀ (p : GoStr),
      c.noPathAt q p = true → prunedD q p c = specTraversal p c) with
  | file n =>
    intro path _
    simp [prunedD, specTraversal]
  | dir n cs ih =>
    intro path hnp
    simp only [Entry.noPathAt, Bool.and_eq_true, Bool.not_eq_true',
      decide_eq_false_iff_not] at hnp
    have hlist : ∀ (ds : List Entry), (∀ d ∈ ds, d ∈ cs.toList) →
        prunedDList q path ds = specList path ds := by
      intro ds
      induction ds with
      | nil => intro _; simp [prunedDList, specList]
      | cons d ds' ih' =>
        intro hsub
        have hd := hsub d (List.mem_cons_self d ds')
        simp only [prunedDList, specList]
        rw [ih d hd (childPath path d.name) (noPathAtL_mem hnp.2 d hd),
          ih' (fun x hx => hsub x (List.mem_cons_of_mem d hx))]
    simp only [prunedD, specTraversal, if_neg hnp.1]
    rw [hlist (sortByKey Entry.name cs.toList) (fun d hd => mem_sortByKey.mp hd)]
  | enil =>
    rename_i c hmem p hnp
    simp [EntryList.toList] at hmem
  | econs e rest ihe ihrest =>
    rename_i c hc p hnp
    simp only [EntryList.toList] at hc
    rcases List.mem_cons.mp hc with h' | h'
    · rw [h']
      exact ihe p (h' ▸ hnp)
    · exact ihrest c h' p hnp

/-- C2: if the callback returns `filepath.SkipDir` exactly at the path `D` —
a path at which the tree holds no file, e.g. the path of a directory — then
the walk visits `D` itself but none of `D`'s descendants (under `D` the pruned
traversal stops at `[D]`), every subtree not containing `D` is traversed
exactly as the full walk would, and `Walk` returns `nil`. -/
theorem c2_walk_skipdir_on_directory (t : Entry) (root D : GoStr)
    (hwf : t.wfE = true) (hnf : t.noFileAt D root = true) :
    Walk (skipOn D) root t = (prunedD D root t, none)
    ∧ (∀ (n : GoStr) (cs : EntryList), prunedD D D (.dir n cs) = [D])
    ∧ (∀ (e : Entry) (p : GoStr), e.noPathAt D p = true →
        prunedD D p e = specTraversal p e) := by
  refine ⟨?_, ?_, fun e p h => prunedD_eq_spec D e p h⟩
  · have h := walkE_skipOnD D t root hwf hnf
    simp only [Walk, h]
    by_cases hq : root = D ∧ t.isDir = true
    · rw [if_pos hq]
      simp
    · rw [if_neg hq]
      simp
  · intro n cs
    simp [prunedD]

theorem c2_walk_skipdir_on_directory_witness :
    (testdataTree.wfE = true ∧ testdataTree.noFileAt [116, 47, 100] [116] = true)
    ∧ (Walk (skipOn [116, 47, 100]) [116] testdataTree =
        (prunedD [116, 47, 100] [116] testdataTree, none)
       ∧ (∀ (n : GoStr) (cs : EntryList),
           prunedD [116, 47, 100] [116, 47, 100] (.dir n cs) = [[116, 47, 100]])
       ∧ (∀ (e : Entry) (p : GoStr), e.noPathAt [116, 47, 100] p = true →
           prunedD [116, 47, 100] p e = specTraversal p e)) :=
  ⟨⟨by decide, by decide⟩,
   c2_walk_skipdir_on_directory testdataTree [116] [116, 47, 100] (by decide) (by decide)⟩

theorem sortByKey_any (key : α → GoStr) (l : List α) (p : α → Bool) :
    (sortByKey key l).any p = l.any p := by
  by_cases h : l.any p = true
  · rw [h]
    rcases List.any_eq_true.mp h with ⟨x, hx, hpx⟩
    exact List.any_eq_true.mpr ⟨x, mem_sortByKey.mpr hx, hpx⟩
  · have h' := Bool.not_eq_true _ ▸ h
    rw [Bool.eq_false_iff.mpr h]
    refine Bool.eq_false_iff.mpr ?_
    intro hc
    rcases List.any_eq_true.mp hc with ⟨x, hx, hpx⟩
    exact h (List.any_eq_true.mpr ⟨x, mem_sortByKey.mp hx, hpx⟩)

/-- The loop of `walk` under the `skipOn q` callback when `q` is never a
directory path: a file child at `q` is visited and then stops the loop with
`SkipDir`; a directory child's `SkipDir` is swallowed and the loop goes on. -/
theorem walkL_skipOnF (q path : GoStr) (cs : List Entry)
    (hnd : nodupKeys (cs.map Entry.name) = true) :
    ∀ (ds : List Entry), (∀ d ∈ ds, d ∈ cs) →
    (∀ d ∈ ds, walkE (skipOn q) (childPath path d.name) d =
      (prunedF q (childPath path d.name) d,
       if hitsF q (childPath path d.name) d = true then some WalkErr.skipDir else none)) →
    walkL (skipOn q) path cs (ds.map Entry.name) =
      (prunedFList q path ds,
       if ds.any (fun c => !c.isDir && (childPath path c.name == q))
       then some WalkErr.skipDir else none) := by
  intro ds
  induction ds with
  | nil =>
    intro _ _
    simp [walkL, prunedFList]
  | cons d ds' ih =>
    intro hsub hIH
    have hlook := lookupChild_self hnd (hsub d (List.mem_cons_self d ds'))
    have hrec := hIH d (List.mem_cons_self d ds')
    have hrest := ih (fun x hx => hsub x (List.mem_cons_of_mem d hx))
      (fun x hx => hIH x (List.mem_cons_of_mem d hx))
    simp only [List.map_cons, walkL]
    split
    · rename_i heq
      rw [hlook] at heq
      exact Option.noConfusion heq
    · rename_i c heq
      rw [hlook] at heq
      injection heq with hdc
      subst hdc
      rcases d with nm | ⟨nm, dcs⟩
      · -- child is a file: computed directly from walkE rather than from hrec
        simp only [Entry.name]
        by_cases hcq : childPath path nm = q
        · simp only [walkE, skipOn, if_pos hcq]
          simp [prunedFList, Entry.isDir, Entry.name, List.any_cons, hcq]
        · simp only [walkE, skipOn, if_neg hcq]
          simp [prunedFList, prunedF, Entry.isDir, Entry.name, List.any_cons, hcq, hrest]
      · -- child is a directory: a SkipDir outcome is swallowed
        simp only [Entry.name] at hrec ⊢
        rw [hrec]
        by_cases hhit : hitsF q (childPath path nm) (Entry.dir nm dcs) = true
        · rw [if_pos hhit]
          simp [prunedFList, Entry.isDir, Entry.name, hrest, List.any_cons]
        · rw [if_neg hhit]
          simp [prunedFList, Entry.isDir, Entry.name, hrest, List.any_cons]

/-- `walk` under `skipOn q`, when no directory of the tree sits at path `q`:
the visits are the `prunedF` traversal, and the call reports `SkipDir` to its
caller exactly when `hitsF` holds (the entry is the file at `q`, or a directory
with a direct file child at `q`). -/
theorem walkE_skipOnF (q : GoStr) (e : Entry) :
    ∀ (path : GoStr), e.wfE = true → e.noDirAt q path = true →
    walkE (skipOn q) path e =
      (prunedF q path e,
       if hitsF q path e = true then some WalkErr.skipDir else none) := by
  induction e using Entry.rec
    (motive_2 := fun l => ∀ c ∈ l.toList, ∀ (p : GoStr),
      c.wfE = true → c.noDirAt q p = true →
      walkE (skipOn q) p c =
        (prunedF q p c,
         if hitsF q p c = true then some WalkErr.skipDir else none)) with
  | file n =>
    intro path _ _
    by_cases hq : path = q
    · simp [walkE, skipOn, prunedF, hitsF, hq]
    · simp [walkE, skipOn, prunedF, hitsF, hq]
  | dir n cs ih =>
    intro path hwf hnd
    simp only [Entry.wfE, Bool.and_eq_true] at hwf
    simp only [Entry.noDirAt, Bool.and_eq_true, Bool.not_eq_true',
      decide_eq_false_iff_not] at hnd
    have hnames : sortByKey id (cs.toList.map Entry.name) =
        (sortByKey Entry.name cs.toList).map Entry.name :=
      (sortByKey_map_key Entry.name cs.toList).symm
    have hloop := walkL_skipOnF q path cs.toList hwf.1 (sortByKey Entry.name cs.toList)
      (fun d hd => mem_sortByKey.mp hd)
      (fun d hd => ih d (mem_sortByKey.mp hd) (childPath path d.name)
        (wfL_mem hwf.2 d (mem_sortByKey.mp hd))
        (noDirAtL_mem hnd.2 d (mem_sortByKey.mp hd)))
    simp only [walkE, skipOn, if_neg hnd.1, hnames, hloop, prunedF, hitsF]
    rw [sortByKey_any]
  | enil =>
    rename_i c hmem p hwf hnd
    simp [EntryList.toList] at hmem
  | econs e rest ihe ihrest =>
    rename_i c hc p hwf hnd
    simp only [EntryList.toList] at hc
    rcases List.mem_cons.mp hc with h' | h'
    · rw [h']
      exact ihe p (h' ▸ hwf) (h' ▸ hnd)
    · exact ihrest c h' p hwf hnd

/-- A pruned-at-file-`q` traversal of a subtree holding no entry at `q` is the
full reference traversal. -/
theorem prunedF_eq_spec (q : GoStr) (e : Entry) :
    ∀ (path : GoStr), e.noPathAt q path = true →
    prunedF q path e = specTraversal path e := by
  induction e using Entry.rec
    (motive_2 := fun l => ∀ c ∈ l.toList, ∀ (p : GoStr),
      c.noPathAt q p = true → prunedF q p c = specTraversal p c) with
  | file n =>
    intro path _
    simp [prunedF, specTraversal]
  | dir n cs ih =>
    intro path hnp
    simp only [Entry.noPathAt, Bool.and_eq_true, Bool.not_eq_true',
      decide_eq_false_iff_not] at hnp
    have hlist : ∀ (ds : List Entry), (∀ d ∈ ds, d ∈ cs.toList) →
        prunedFList q path ds = specList path ds := by
      intro ds
      induction ds with
      | nil => intro _; simp [prunedFList, specList]
      | cons d ds' ih' =>
        intro hsub
        have hd := hsub d (List.mem_cons_self d ds')
        have hnpd := noPathAtL_mem hnp.2 d hd
        have hne : childPath path d.name ≠ q := by
          rcases d with nm | ⟨nm, dcs⟩
          · simpa [Entry.noPathAt, Entry.name] using hnpd
          · have := (Bool.and_eq_true _ _ ▸ hnpd).1
            simpa [Entry.name] using this
        simp only [prunedFList, specList]
        rw [if_neg (by simp [hne])]
        rw [ih d hd (childPath path d.name) hnpd,
          ih' (fun x hx => hsub x (List.mem_cons_of_mem d hx))]
    simp only [prunedF, specTraversal]
    rw [hlist (sortByKey Entry.name cs.toList) (fun d hd => mem_sortByKey.mp hd)]
  | enil =>
    rename_i c hmem p hnp
    simp [EntryList.toList] at hmem
  | econs e rest ihe ihrest =>
    rename_i c hc p hnp
    simp only [EntryList.toList] at hc
    rcases List.mem_cons.mp hc with h' | h'
    · rw [h']
      exact ihe p (h' ▸ hnp)
    · exact ihrest c h' p hnp

/-- C3: if the callback returns `filepath.SkipDir` exactly at the path `F` —
a path at which the tree holds no directory, e.g. the path of a file — then
the walk completes with `nil` and visits exactly the `prunedF` traversal: the
file at `F` is still visited, the not-yet-visited later siblings in `F`'s
parent directory's sorted listing are dropped (the loop stops at `[F]`), and
every subtree not containing `F` — in particular everything outside that
parent's remaining listing — is traversed exactly as the full walk. -/
theorem c3_walk_skipdir_on_file (t : Entry) (root F : GoStr)
    (hwf : t.wfE = true) (hnd : t.noDirAt F root = true) :
    Walk (skipOn F) root t = (prunedF F root t, none)
    ∧ (∀ (p : GoStr) (c : Entry) (rest : List Entry), c.isDir = false →
        childPath p c.name = F → prunedFList F p (c :: rest) = [childPath p c.name])
    ∧ (∀ (e : Entry) (p : GoStr), e.noPathAt F p = true →
        prunedF F p e = specTraversal p e) := by
  refine ⟨?_, ?_, fun e p h => prunedF_eq_spec F e p h⟩
  · have h := walkE_skipOnF F t root hwf hnd
    simp only [Walk, h]
    by_cases hq : hitsF F root t = true
    · rw [if_pos hq]
      simp
    · rw [if_neg hq]
      simp
  · intro p c rest hcd hcq
    simp [prunedFList, hcd, hcq]

theorem c3_walk_skipdir_on_file_witness :
    (testdataTree.wfE = true ∧ testdataTree.noDirAt [116, 47, 99] [116] = true)
    ∧ (Walk (skipOn [116, 47, 99]) [116] testdataTree =
        (prunedF [116, 47, 99] [116] testdataTree, none)
       ∧ (∀ (p : GoStr) (c : Entry) (rest : List Entry), c.isDir = false →
           childPath p c.name = [116, 47, 99] →
           prunedFList [116, 47, 99] p (c :: rest) = [childPath p c.name])
       ∧ (∀ (e : Entry) (p : GoStr), e.noPathAt [116, 47, 99] p = true →
           prunedF [116, 47, 99] p e = specTraversal p e)) :=
  ⟨⟨by decide, by decide⟩,
   c3_walk_skipdir_on_file testdataTree [116] [116, 47, 99] (by decide) (by decide)⟩

/-!
## The in-memory buffer (`memfs/buffer.go`, type `Buf`)

Bytes are `Nat`s; a Go slice is a backing array (capacity) plus a length.
-/

/-- `MinBufferSize` from the source. -/
def MinBufferSize : Nat := 512

/-- A Go byte slice: backing array (`data`, whose length is the capacity) and
current length; the operations keep `len ≤ data.length`. -/
structure GoSlice where
  data : List Nat
  len : Nat
deriving DecidableEq

def GoSlice.cap (s : GoSlice) : Nat := s.data.length

/-- The visible bytes of the slice. -/
def GoSlice.content (s : GoSlice) : List Nat := s.data.take s.len

/-- Errors of the buffer operations, by kind. -/
inductive BufErr where
  | invalidWhence
  | negativePosition
  | tooFar
  | eof
  | tooLarge
deriving DecidableEq

/-- The spec's `InvalidArgument` kind covers the three seek failure errors of
the source (`"Seek: invalid whence"`, `"Seek: negative position"`,
`"Seek: too far"`). -/
def BufErr.isInvalidArgument : BufErr → Bool
  | .invalidWhence => true
  | .negativePosition => true
  | .tooFar => true
  | _ => false

/-- `Buf`: a byte slice plus seek cursor (`ptr`, an `int64`). -/
structure Buf where
  buf : GoSlice
  ptr : Int
deriving DecidableEq

/-- The allocation size `Buf.grow` requests when it must reallocate:
`2*cap + MinBufferSize`, raised to `n + MinBufferSize` when that is smaller
than `n`. -/
def growSize (cap n : Nat) : Nat :=
  let size0 := 2 * cap + MinBufferSize
  if size0 < n then n + MinBufferSize else size0

/-- Result of `Buf.grow`: the grown slice, an `ErrTooLarge` failure from
`makeSlice`, or a Go runtime panic (the reslice `(*v.buf)[0 : m+n]` past the
new capacity — reachable only when `growSize` undershoots `m+n`). -/
inductive GrowRes where
  | ok (s : GoSlice)
  | fail
  | panicked
deriving DecidableEq

/-- `Buf.grow` from the source; allocation success of `makeSlice` is modelled
by the oracle `allocOk` (it fails with `ErrTooLarge` exactly when the
requested size is refused). -/
def GoSlice.grow (allocOk : Nat → Bool) (s : GoSlice) (n : Nat) : GrowRes :=
  if s.len + n > s.cap then
    let size := growSize s.cap n
    if allocOk size then
      if s.len + n ≤ size then
        GrowRes.ok ⟨s.content ++ List.replicate (size - s.len) 0, s.len + n⟩
      else GrowRes.panicked
    else GrowRes.fail
  else GrowRes.ok ⟨s.data, s.len + n⟩

/-- `copy((*v.buf)[i:], p)`: overwrite up to `min(len(p), len-i)` bytes at
offset `i`; the backing array beyond them and the length are unchanged. -/
def GoSlice.writeAt (s : GoSlice) (i : Nat) (p : List Nat) : GoSlice :=
  let cnt := min p.length (s.len - i)
  ⟨s.data.take i ++ p.take cnt ++ s.data.drop (i + cnt), s.len⟩

/-- `Buf.Write`: grow by `len(p)`, then copy at the cursor and advance it by
`len(p)`. `none` models a Go runtime panic (negative or out-of-range cursor,
or the grow reslice panic — unreachable from handle states the filesystem
produces). -/
def Buf.write (allocOk : Nat → Bool) (v : Buf) (p : List Nat) :
    Option ((Nat × Option BufErr) × Buf) :=
  let l := p.length
  match v.buf.grow allocOk l with
  | .fail => some ((0, some BufErr.tooLarge), v)
  | .panicked => none
  | .ok s =>
    if v.ptr < 0 ∨ (s.len : Int) < v.ptr then none
    else some ((l, none), ⟨s.writeAt v.ptr.toNat p, v.ptr + l⟩)

/-- The bound checks shared by all three accepted whence values of
`Buf.Seek`. -/
def Buf.seekAbs (v : Buf) (abs : Int) : (Int × Option BufErr) × Buf :=
  if abs < 0 then ((0, some BufErr.negativePosition), v)
  else if abs > (v.buf.len : Int) then ((0, some BufErr.tooFar), v)
  else ((abs, none), { v with ptr := abs })

/-- `Buf.Seek` from the source: the absolute position is relative to the
start (`os.SEEK_SET = 0`), the cursor (`os.SEEK_CUR = 1`) or the end
(`os.SEEK_END = 2`); any other whence is rejected; the cursor is updated only
on success. -/
def Buf.seek (v : Buf) (offset : Int) (whence : Int) : (Int × Option BufErr) × Buf :=
  if whence = 0 then Buf.seekAbs v offset
  else if whence = 1 then Buf.seekAbs v (v.ptr + offset)
  else if whence = 2 then Buf.seekAbs v ((v.buf.len : Int) + offset)
  else ((0, some BufErr.invalidWhence), v)

/-- `Buf.Read`: an empty destination returns `(0, nil)` at once; a cursor at
or past the end returns `io.EOF` with nothing copied; otherwise bytes are
copied from the cursor and the cursor advances. The result carries the
destination buffer after the copy. `none` models the Go panic on a negative
cursor. -/
def Buf.read (v : Buf) (p : List Nat) :
    Option ((List Nat × Nat × Option BufErr) × Buf) :=
  if p.length = 0 then some ((p, 0, none), v)
  else if (v.buf.len : Int) ≤ v.ptr then some ((p, 0, some BufErr.eof), v)
  else if v.ptr < 0 then none
  else
    let src := v.buf.content.drop v.ptr.toNat
    let n := min p.length src.length
    some ((src.take n ++ p.drop n, n, none), ⟨v.buf, v.ptr + n⟩)

/-- The buffer state of a fresh file handle:
`make([]byte, 0, MinBufferSize)` with cursor 0 (`fileInfo.file` allocates this
whenever the node has no content yet or `O_TRUNC` is set — in particular for
the handle `Create` returns on a new path). -/
def freshBuf : Buf := ⟨⟨List.replicate MinBufferSize 0, 0⟩, 0⟩

/-- The absolute seek target of `Buf.Seek` for each accepted whence value. -/
def seekTarget (v : Buf) (offset : Int) (whence : Int) : Int :=
  if whence = 0 then offset
  else if whence = 1 then v.ptr + offset
  else (v.buf.len : Int) + offset

/-!
## The in-memory filesystem (`memfs/memfs.go`, `memfs/path.go`)

The Go node graph uses pointers (`parent` back-references plus `childs` maps),
so it is modelled as a heap: nodes addressed by numeric ids.
-/

/-- The byte `'.'`. -/
def dotB : Nat := 46

/-- ASCII whitespace for `strings.TrimSpace`. -/
def isSpaceB (b : Nat) : Bool :=
  b == 32 || b == 9 || b == 10 || b == 11 || b == 12 || b == 13

def trimSpace (s : GoStr) : GoStr :=
  ((s.dropWhile isSpaceB).reverse.dropWhile isSpaceB).reverse

/-- `strings.TrimSuffix(path, "/")`: drop one trailing separator. -/
def trimSuffixSep (s : GoStr) : GoStr :=
  if s.getLast? = some sepB then s.dropLast else s

/-- `strings.Split(s, "/")`. -/
def splitOnSep : GoStr → List GoStr
  | [] => [[]]
  | b :: rest =>
    let r := splitOnSep rest
    if b = sepB then [] :: r
    else
      match r with
      | [] => [[b]]
      | seg :: segs => (b :: seg) :: segs

/-- `strings.HasPrefix`. -/
def startsWithB (pre s : GoStr) : Bool := s.take pre.length == pre

/-- `SplitPath` from `memfs/path.go`. -/
def SplitPath (path : GoStr) : List GoStr :=
  let p1 := trimSpace path
  let p2 := trimSuffixSep p1
  if p2 = [] then [[]]
  else if p2 = [dotB] then [[dotB]]
  else
    let p3 := if !(startsWithB [sepB] p2) && !(startsWithB [dotB, sepB] p2)
              then dotB :: sepB :: p2 else p2
    splitOnSep p3

def joinSep : List GoStr → GoStr
  | [] => []
  | [s] => s
  | s :: rest => s ++ sepB :: joinSep rest

/-- Go's `path.Clean` (the source calls the stdlib): collapse separators,
drop `.` elements, resolve `..` against the preceding element (or drop it at
a rooted top), empty result becomes `"."`. -/
def cleanPath (p : GoStr) : GoStr :=
  if p = [] then [dotB]
  else
    let rooted := startsWithB [sepB] p
    let stack := (splitOnSep p).foldl (fun st s =>
      if s = [] ∨ s = [dotB] then st
      else if s = [dotB, dotB] then
        match st with
        | [] => if rooted then [] else [[dotB, dotB]]
        | top :: rest => if top = [dotB, dotB] then [dotB, dotB] :: top :: rest else rest
      else s :: st) []
    let out := (if rooted then [sepB] else []) ++ joinSep stack.reverse
    if out = [] then [dotB] else out

/-- Go's `path.Base` (`filepath.Base` in the source, imported as `path`). -/
def basePath (p : GoStr) : GoStr :=
  if p = [] then [dotB]
  else
    let q := (p.reverse.dropWhile (fun b => b == sepB)).reverse
    if q = [] then [sepB]
    else (q.reverse.takeWhile (fun b => !(b == sepB))).reverse

/-- Error kinds of the memFS façade: `os.ErrNotExist`, `os.ErrExist` (and
mkdir's "already exists"), `ErrIsDirectory`, and `fileInfo`'s
"parent does not exist". -/
inductive FsErr where
  | notExist
  | exist
  | isDirectory
  | parentNotExist
deriving DecidableEq

instance {ε α : Type} [DecidableEq ε] [DecidableEq α] : DecidableEq (Except ε α)
  | .error a, .error b =>
    if h : a = b then .isTrue (by rw [h]) else .isFalse (by intro hc; injection hc; contradiction)
  | .error _, .ok _ => .isFalse (by intro hc; injection hc)
  | .ok _, .error _ => .isFalse (by intro hc; injection hc)
  | .ok a, .ok b =>
    if h : a = b then .isTrue (by rw [h]) else .isFalse (by intro hc; injection hc; contradiction)

/-- One `fileInfo` node: name, kind, mode, parent pointer, child map (`none`
models a nil Go map) and content buffer (`none` until first opened). -/
structure NodeData where
  name : GoStr
  dir : Bool
  mode : Nat
  parent : Option Nat
  childs : Option (List (GoStr × Nat))
  nbuf : Option GoSlice
deriving DecidableEq

/-- The `memFS` heap: nodes by id, the root and working-directory ids, and the
next fresh id. -/
structure FS where
  nodes : List (Nat × NodeData)
  root : Nat
  wd : Nat
  next : Nat
deriving DecidableEq

/-- First-match association lookup (a Go map read; keys are unique). -/
def alGet {κ ν : Type} [DecidableEq κ] : List (κ × ν) → κ → Option ν
  | [], _ => none
  | (k', v) :: rest, k => if k' = k then some v else alGet rest k

/-- Association update (a Go map write: replace or append). -/
def alSet {κ ν : Type} [DecidableEq κ] : List (κ × ν) → κ → ν → List (κ × ν)
  | [], k, v => [(k, v)]
  | (k', v') :: rest, k, v =>
    if k' = k then (k, v) :: rest else (k', v') :: alSet rest k v

/-- Association removal (Go `delete`). -/
def alDel {κ ν : Type} [DecidableEq κ] : List (κ × ν) → κ → List (κ × ν)
  | [], _ => []
  | (k', v') :: rest, k => if k' = k then rest else (k', v') :: alDel rest k

def FS.node (fs : FS) (id : Nat) : Option NodeData := alGet fs.nodes id

def FS.setNode (fs : FS) (id : Nat) (nd : NodeData) : FS :=
  { fs with nodes := alSet fs.nodes id nd }

/-- `MemFS()`: one root node named "/", a directory with no parent and a nil
child map; the working directory is the root. -/
def memFSinit : FS :=
  ⟨[(0, ⟨[sepB], true, 0, none, none, none⟩)], 0, 0, 1⟩

/-- The intermediate-segment loop of `memFS.fileInfo`: each segment must name
an existing directory child of the current parent. -/
def resolveParents (fs : FS) : Nat → List GoStr → Option Nat
  | pid, [] => some pid
  | pid, seg :: rest =>
    match fs.node pid with
    | none => none
    | some nd =>
      match nd.childs with
      | none => none
      | some cl =>
        match alGet cl seg with
        | some cid =>
          match fs.node cid with
          | some cd => if cd.dir then resolveParents fs cid rest else none
          | none => none
        | none => none

/-- `memFS.fileInfo`: resolve a cleaned path to (parent id, target id).
`""` is the root and `"."` the working directory; a missing or non-directory
intermediate segment is the distinct "parent does not exist" failure; the only
mutation is the lazy allocation of an empty child map on the parent. -/
def fileInfoRes (fs : FS) (path : GoStr) : (Except FsErr (Option Nat × Option Nat)) × FS :=
  let cpath := cleanPath path
  let segments := SplitPath cpath
  if segments = [[]] then (.ok (none, some fs.root), fs)
  else if segments = [[dotB]] then
    (.ok ((fs.node fs.wd).bind NodeData.parent, some fs.wd), fs)
  else
    let parent0 := if segments.head? = some [dotB] then fs.wd else fs.root
    let segs := segments.tail
    match resolveParents fs parent0 segs.dropLast with
    | none => (.error .parentNotExist, fs)
    | some pid =>
      let lastSeg := segs.getLast?.getD []
      match fs.node pid with
      | none => (.error .parentNotExist, fs)
      | some nd =>
        match nd.childs with
        | some cl =>
          match alGet cl lastSeg with
          | some nid => (.ok (some pid, some nid), fs)
          | none => (.ok (some pid, none), fs)
        | none =>
          (.ok (some pid, none), fs.setNode pid { nd with childs := some [] })

/-- `hasFlag(flag, flags)`: `flags&flag == flag`. -/
def hasFlagB (flag flags : Nat) : Bool := flags.land flag == flag

def O_RDONLY : Nat := 0
def O_WRONLY : Nat := 1
def O_RDWR : Nat := 2
def O_CREATE : Nat := 64
def O_TRUNC : Nat := 512
def O_APPEND : Nat := 1024

/-- Capability of a vended handle: plain (`O_RDWR`), the `woFile` wrapper
(write-only: `Read` fails `ErrWriteOnly`), or the `roFile` wrapper
(read-only: `Write` fails `ErrReadOnly`). -/
inductive Access where
  | rw
  | wo
  | ro
deriving DecidableEq

/-- A vended file handle: its name (`AbsPath`), its capability wrapper and
its buffer state. -/
structure FHandle where
  hname : GoStr
  access : Access
  hbuf : Buf
deriving DecidableEq

/-- `fileInfo.AbsPath` with explicit fuel: the source recurses along parent
pointers and does not terminate on a parent cycle; `none` models that. -/
def absPath (fs : FS) : Nat → Nat → Option GoStr
  | 0, _ => none
  | fuel + 1, id =>
    match fs.node id with
    | none => none
    | some nd =>
      match nd.parent with
      | none => some [sepB]
      | some p => (absPath fs fuel p).map (fun pp => cleanPath (pp ++ sepB :: nd.name))

/-- `fileInfo.file(flag)`: allocate a fresh empty buffer
(`make([]byte, 0, MinBufferSize)`) when the node has none or `O_TRUNC` is
set; seek the new handle to the end under `O_APPEND`; gate the handle by
`O_RDWR` / `O_WRONLY` / read-only. -/
def mkHandle (fs : FS) (nid : Nat) (flag : Nat) : Option (FHandle × FS) :=
  match fs.node nid with
  | none => none
  | some nd =>
    let fresh : GoSlice := ⟨List.replicate MinBufferSize 0, 0⟩
    let sl := if nd.nbuf = none ∨ hasFlagB O_TRUNC flag = true
              then fresh else nd.nbuf.getD fresh
    let fs' := if nd.nbuf = none ∨ hasFlagB O_TRUNC flag = true
               then fs.setNode nid { nd with nbuf := some fresh } else fs
    match absPath fs' (fs'.nodes.length + 1) nid with
    | none => none
    | some nm =>
      let f0 : Buf := ⟨sl, 0⟩
      let f1 := if hasFlagB O_APPEND flag then (f0.seek 0 2).2 else f0
      let acc := if hasFlagB O_RDWR flag then Access.rw
                 else if hasFlagB O_WRONLY flag then Access.wo
                 else Access.ro
      some (⟨nm, acc, f1⟩, fs')

/-- `memFS.OpenFile`. `none` models a Go runtime panic (nil-map or nil-pointer
access, e.g. creating at the root path). -/
def openFileM (fs : FS) (name : GoStr) (flag : Nat) (perm : Nat) :
    Option ((Except FsErr FHandle) × FS) :=
  let cname := cleanPath name
  let base := basePath cname
  match fileInfoRes fs cname with
  | (.error e, fs') => some (.error e, fs')
  | (.ok (parentOpt, nodeOpt), fs') =>
    if hasFlagB O_CREATE flag then
      if nodeOpt.isSome ∧ ¬hasFlagB O_TRUNC flag = true then some (.error .exist, fs')
      else
        match parentOpt with
        | none => none
        | some pid =>
          match fs'.node pid with
          | none => none
          | some pnd =>
            match pnd.childs with
            | none => none
            | some cl =>
              let nid := fs'.next
              let nd : NodeData := ⟨base, false, perm, some pid, none, none⟩
              let fs₂ : FS :=
                { nodes := alSet (alSet fs'.nodes pid { pnd with childs := some (alSet cl base nid) }) nid nd,
                  root := fs'.root, wd := fs'.wd, next := fs'.next + 1 }
              (mkHandle fs₂ nid flag).map (fun r => (Except.ok r.1, r.2))
    else
      match nodeOpt with
      | none => some (.error .notExist, fs')
      | some nid =>
        match fs'.node nid with
        | none => none
        | some nd =>
          if nd.dir then some (.error .isDirectory, fs')
          else (mkHandle fs' nid flag).map (fun r => (Except.ok r.1, r.2))

/-- `memFS.Create`: `OpenFile(name, O_RDWR|O_CREATE|O_TRUNC, 0666)`. -/
def createM (fs : FS) (name : GoStr) : Option ((Except FsErr FHandle) × FS) :=
  openFileM fs name (Nat.lor O_RDWR (Nat.lor O_CREATE O_TRUNC)) 438

/-- `memFS.Mkdir`. `none` models a Go panic (nil parent pointer / nil map —
unreachable through resolution). -/
def mkdirM (fs : FS) (name : GoStr) (perm : Nat) : Option ((Option FsErr) × FS) :=
  let cname := cleanPath name
  let base := basePath cname
  match fileInfoRes fs cname with
  | (.error e, fs') => some (some e, fs')
  | (.ok (_, some _), fs') => some (some .exist, fs')
  | (.ok (parentOpt, none), fs') =>
    match parentOpt with
    | none => none
    | some pid =>
      match fs'.node pid with
      | none => none
      | some pnd =>
        match pnd.childs with
        | none => none
        | some cl =>
          let nid := fs'.next
          let nd : NodeData := ⟨base, true, perm, some pid, none, none⟩
          some (none,
            { nodes := alSet (alSet fs'.nodes pid { pnd with childs := some (alSet cl base nid) }) nid nd,
              root := fs'.root, wd := fs'.wd, next := fs'.next + 1 })

/-- `memFS.Remove`: detach the target from its parent's child map
(non-recursive; `delete` on a nil map is a no-op). `none` models the nil
parent dereference when removing "/". -/
def removeM (fs : FS) (name : GoStr) : Option ((Option FsErr) × FS) :=
  match fileInfoRes fs (cleanPath name) with
  | (.error e, fs') => some (some e, fs')
  | (.ok (_, none), fs') => some (some .notExist, fs')
  | (.ok (parentOpt, some nid), fs') =>
    match parentOpt with
    | none => none
    | some pid =>
      match fs'.node pid, fs'.node nid with
      | some pnd, some nd =>
        some (none, fs'.setNode pid
          { pnd with childs := pnd.childs.map (fun cl => alDel cl nd.name) })
      | _, _ => none

/-- `memFS.Rename`: resolve both paths, reject a missing source or an existing
destination, then detach the node from its old parent, repoint its parent,
rename it and hook it under the new parent. -/
def renameM (fs : FS) (oldpath newpath : GoStr) : Option ((Option FsErr) × FS) :=
  match fileInfoRes fs (cleanPath oldpath) with
  | (.error e, fs₁) => some (some e, fs₁)
  | (.ok (oldParentOpt, oldNodeOpt), fs₁) =>
    match oldNodeOpt with
    | none => some (some .notExist, fs₁)
    | some oldId =>
      match fileInfoRes fs₁ (cleanPath newpath) with
      | (.error e, fs₂) => some (some e, fs₂)
      | (.ok (newParentOpt, newNodeOpt), fs₂) =>
        match newNodeOpt with
        | some _ => some (some .exist, fs₂)
        | none =>
          let newBase := basePath (cleanPath newpath)
          match oldParentOpt with
          | none => none
          | some opid =>
            match fs₂.node opid, fs₂.node oldId with
            | some opnd, some oldNd =>
              let fs₃ := fs₂.setNode opid
                { opnd with childs := opnd.childs.map (fun cl => alDel cl oldNd.name) }
              match newParentOpt with
              | none => none
              | some npid =>
                match fs₃.node oldId with
                | none => none
                | some oldNd₃ =>
                  let fs₄ := fs₃.setNode oldId
                    { oldNd₃ with parent := some npid, name := newBase }
                  match fs₄.node npid with
                  | none => none
                  | some npnd =>
                    match npnd.childs with
                    | none => none
                    | some cl =>
                      some (none, fs₄.setNode npid
                        { npnd with childs := some (alSet cl newBase oldId) })
            | _, _ => none

/-- A stat descriptor: just the fields the claims speak about. -/
structure FInfoLite where
  fname : GoStr
  fdir : Bool
deriving DecidableEq

/-- `memFS.Stat` (and `Lstat`, which just calls `Stat`). -/
def statM (fs : FS) (name : GoStr) : (Except FsErr FInfoLite) × FS :=
  match fileInfoRes fs (cleanPath name) with
  | (.error e, fs') => (.error e, fs')
  | (.ok (_, none), fs') => (.error .notExist, fs')
  | (.ok (_, some nid), fs') =>
    match fs'.node nid with
    | none => (.error .notExist, fs')
    | some nd => (.ok ⟨nd.name, nd.dir⟩, fs')

/-- `memFS.ReadDir`: an absent target and a non-directory target yield the
same `os.ErrNotExist` error; a directory's children are listed sorted by
name (`sort.Sort(byName(..))`). -/
def readDirM (fs : FS) (path : GoStr) : (Except FsErr (List FInfoLite)) × FS :=
  match fileInfoRes fs (cleanPath path) with
  | (.error e, fs') => (.error e, fs')
  | (.ok (_, nodeOpt), fs') =>
    match nodeOpt with
    | none => (.error .notExist, fs')
    | some nid =>
      match fs'.node nid with
      | none => (.error .notExist, fs')
      | some nd =>
        if ¬nd.dir then (.error .notExist, fs')
        else
          let fis := (nd.childs.getD []).filterMap
            (fun c => (fs'.node c.2).map (fun cd => (⟨cd.name, cd.dir⟩ : FInfoLite)))
          (.ok (sortByKey FInfoLite.fname fis), fs')

/-- Parent-chain termination: following parent pointers from `id` reaches a
parentless node within `fuel` steps. -/
def chainTerminates (fs : FS) : Nat → Nat → Bool
  | 0, _ => false
  | fuel + 1, id =>
    match fs.node id with
    | none => false
    | some nd =>
      match nd.parent with
      | none => true
      | some p => chainTerminates fs fuel p

/-- How many child-map entries across the whole heap point at `id`. -/
def childRefs (fs : FS) (id : Nat) : Nat :=
  (fs.nodes.map (fun pr => ((pr.2.childs.getD []).filter (fun c => c.2 == id)).length)).sum

/-- The strict-hierarchy invariant of the spec: the root is a parentless
directory referenced by no child map; every child-map entry points at an
existing node whose parent pointer and name agree with it (each non-root node
has exactly the one parent whose map contains it); no node is referenced as a
child of two parents (or twice); and every parent chain terminates, so the
graph is acyclic — no node is its own ancestor. -/
def strictHierarchy (fs : FS) : Bool :=
  (match fs.node fs.root with
   | some rd => decide (rd.parent = none) && rd.dir
   | none => false)
  && fs.nodes.all (fun pr =>
       (pr.2.childs.getD []).all (fun c =>
         match fs.node c.2 with
         | some cd => decide (cd.parent = some pr.1) && decide (cd.name = c.1)
         | none => false))
  && fs.nodes.all (fun pr => decide (childRefs fs pr.1 ≤ 1))
  && decide (childRefs fs fs.root = 0)
  && fs.nodes.all (fun pr => chainTerminates fs (fs.nodes.length + 1) pr.1)

theorem grow_fail (allocOk : Nat → Bool) (s : GoSlice) (n : Nat)
    (h : s.cap < s.len + n) (ha : allocOk (growSize s.cap n) = false) :
    s.grow allocOk n = GrowRes.fail := by
  unfold GoSlice.grow
  rw [if_pos (by omega)]
  simp [ha]

/-- C6: whenever a write's internal growth hits allocation exhaustion
(`makeSlice` fails with `ErrTooLarge`, the `ResourceExhausted` kind), `Write`
returns 0 bytes with that error and leaves the stored content, the backing
slice and the cursor exactly as they were — for a write of any size,
including one exceeding twice the current capacity plus `MinBufferSize`
(where `grow` requests `len(p) + MinBufferSize` instead). -/
theorem c6_write_alloc_failure_no_corruption (allocOk : Nat → Bool) (v : Buf)
    (p : List Nat) (hov : v.buf.cap < v.buf.len + p.length)
    (halloc : allocOk (growSize v.buf.cap p.length) = false) :
    v.write allocOk p = some ((0, some BufErr.tooLarge), v) := by
  have hg := grow_fail allocOk v.buf p.length hov halloc
  simp [Buf.write, hg]

set_option maxRecDepth 4096 in
theorem c6_write_alloc_failure_no_corruption_witness :
    Buf.write (fun _ => false) ⟨⟨[5, 6, 7], 3⟩, 1⟩ [9] =
      some ((0, some BufErr.tooLarge), ⟨⟨[5, 6, 7], 3⟩, 1⟩)
    ∧ Buf.write (fun _ => false) ⟨⟨[5, 6, 7], 3⟩, 1⟩ (List.replicate 519 7) =
      some ((0, some BufErr.tooLarge), ⟨⟨[5, 6, 7], 3⟩, 1⟩) :=
  ⟨c6_write_alloc_failure_no_corruption (fun _ => false) ⟨⟨[5, 6, 7], 3⟩, 1⟩ [9]
      (by decide) rfl,
   c6_write_alloc_failure_no_corruption (fun _ => false) ⟨⟨[5, 6, 7], 3⟩, 1⟩
      (List.replicate 519 7) (by decide) rfl⟩

theorem seekAbs_ok (v : Buf) (t : Int) (h0 : 0 ≤ t) (h1 : t ≤ (v.buf.len : Int)) :
    v.seekAbs t = ((t, none), { v with ptr := t }) := by
  unfold Buf.seekAbs
  rw [if_neg (by omega), if_neg (by omega)]

theorem seekAbs_neg (v : Buf) (t : Int) (h : t < 0) :
    v.seekAbs t = ((0, some BufErr.negativePosition), v) := by
  unfold Buf.seekAbs
  rw [if_pos h]

theorem seekAbs_far (v : Buf) (t : Int) (h0 : ¬t < 0) (h : (v.buf.len : Int) < t) :
    v.seekAbs t = ((0, some BufErr.tooFar), v) := by
  unfold Buf.seekAbs
  rw [if_neg h0, if_pos (by omega)]

theorem seek_dispatch (v : Buf) (offset whence : Int)
    (hw : whence = 0 ∨ whence = 1 ∨ whence = 2) :
    v.seek offset whence = v.seekAbs (seekTarget v offset whence) := by
  rcases hw with rfl | rfl | rfl
  · unfold Buf.seek seekTarget
    norm_num
  · unfold Buf.seek seekTarget
    norm_num
  · unfold Buf.seek seekTarget
    norm_num

/-- C5: `Seek` succeeds — returning the computed absolute position and moving
the cursor there — exactly when the whence is one of
`{SEEK_SET, SEEK_CUR, SEEK_END} = {0, 1, 2}` and the absolute position lies in
`[0, len]`; in every other case (negative target, target strictly past the
end, unrecognized whence) it returns 0 with an error of the
`InvalidArgument` kind and the cursor keeps its previous value. -/
theorem c5_seek_validity (v : Buf) (offset whence : Int) :
    ((whence = 0 ∨ whence = 1 ∨ whence = 2) ∧
       0 ≤ seekTarget v offset whence ∧ seekTarget v offset whence ≤ (v.buf.len : Int) →
      v.seek offset whence =
        ((seekTarget v offset whence, none), { v with ptr := seekTarget v offset whence }))
    ∧ (¬((whence = 0 ∨ whence = 1 ∨ whence = 2) ∧
         0 ≤ seekTarget v offset whence ∧ seekTarget v offset whence ≤ (v.buf.len : Int)) →
      ∃ e, BufErr.isInvalidArgument e = true ∧ v.seek offset whence = ((0, some e), v)) := by
  constructor
  · rintro ⟨hw, h0, h1⟩
    rw [seek_dispatch v offset whence hw]
    exact seekAbs_ok v _ h0 h1
  · intro hn
    by_cases hw : whence = 0 ∨ whence = 1 ∨ whence = 2
    · rw [seek_dispatch v offset whence hw]
      have hb : ¬(0 ≤ seekTarget v offset whence ∧
          seekTarget v offset whence ≤ (v.buf.len : Int)) := fun hb => hn ⟨hw, hb⟩
      by_cases hneg : seekTarget v offset whence < 0
      · exact ⟨BufErr.negativePosition, rfl, seekAbs_neg v _ hneg⟩
      · have htoo : (v.buf.len : Int) < seekTarget v offset whence := by
          rcases Int.lt_or_le (v.buf.len : Int) (seekTarget v offset whence) with h | h
          · exact h
          · exact absurd ⟨by omega, h⟩ hb
        exact ⟨BufErr.tooFar, rfl, seekAbs_far v _ hneg htoo⟩
    · push_neg at hw
      refine ⟨BufErr.invalidWhence, rfl, ?_⟩
      unfold Buf.seek
      rw [if_neg hw.1, if_neg hw.2.1, if_neg hw.2.2]

theorem c5_seek_validity_witness :
    Buf.seek ⟨⟨[1, 2, 3], 3⟩, 1⟩ 2 0 = ((2, none), ⟨⟨[1, 2, 3], 3⟩, 2⟩)
    ∧ (∃ e, BufErr.isInvalidArgument e = true ∧
        Buf.seek ⟨⟨[1, 2, 3], 3⟩, 1⟩ 5 0 = ((0, some e), ⟨⟨[1, 2, 3], 3⟩, 1⟩))
    ∧ (∃ e, BufErr.isInvalidArgument e = true ∧
        Buf.seek ⟨⟨[1, 2, 3], 3⟩, 1⟩ 0 7 = ((0, some e), ⟨⟨[1, 2, 3], 3⟩, 1⟩)) :=
  ⟨by simpa using (c5_seek_validity ⟨⟨[1, 2, 3], 3⟩, 1⟩ 2 0).1 (by decide),
   (c5_seek_validity ⟨⟨[1, 2, 3], 3⟩, 1⟩ 5 0).2 (by decide),
   (c5_seek_validity ⟨⟨[1, 2, 3], 3⟩, 1⟩ 0 7).2 (by decide)⟩

/-- C10: a read with an empty destination buffer returns `(0, nil)` whatever
the cursor is, even at or past the end of content; for a non-empty
destination, the `io.EOF` (`EndOfStream`) outcome — 0 bytes copied, the
buffer untouched, not a state-changing failure — is returned exactly when the
cursor is at or past the content length. -/
theorem c10_read_empty_and_eof (v : Buf) (p : List Nat) :
    (p = [] → v.read p = some ((p, 0, none), v))
    ∧ (p ≠ [] →
        ((v.buf.len : Int) ≤ v.ptr ↔ v.read p = some ((p, 0, some BufErr.eof), v))) := by
  constructor
  · intro hp
    subst hp
    simp [Buf.read]
  · intro hp
    have hlen : p.length ≠ 0 := fun h => hp (List.length_eq_zero.mp h)
    constructor
    · intro hle
      simp only [Buf.read, if_neg hlen, if_pos hle]
    · intro heq
      by_cases hle : (v.buf.len : Int) ≤ v.ptr
      · exact hle
      · exfalso
        simp only [Buf.read, if_neg hlen, if_neg hle] at heq
        by_cases hneg : v.ptr < 0
        · rw [if_pos hneg] at heq
          exact Option.noConfusion heq
        · rw [if_neg hneg] at heq
          have h2 := congrArg (fun r => ((r.getD ((p, 0, none), v)).1.2.2 : Option BufErr)) heq
          simp at h2

theorem c10_read_empty_and_eof_witness :
    Buf.read ⟨⟨[1, 2], 2⟩, 5⟩ [] = some (([], 0, none), ⟨⟨[1, 2], 2⟩, 5⟩)
    ∧ Buf.read ⟨⟨[1, 2], 2⟩, 2⟩ [0] = some (([0], 0, some BufErr.eof), ⟨⟨[1, 2], 2⟩, 2⟩) :=
  ⟨(c10_read_empty_and_eof ⟨⟨[1, 2], 2⟩, 5⟩ []).1 rfl,
   ((c10_read_empty_and_eof ⟨⟨[1, 2], 2⟩, 2⟩ [0]).2 (by decide)).mp (by decide)⟩

theorem grow_zeros (allocOk : Nat → Bool) (C0 N : Nat) (hA : ∀ k, allocOk k = true) :
    ∃ C, N ≤ C ∧
      GoSlice.grow allocOk ⟨List.replicate C0 0, 0⟩ N =
        GrowRes.ok ⟨List.replicate C 0, N⟩ := by
  by_cases h : N ≤ C0
  · refine ⟨C0, h, ?_⟩
    unfold GoSlice.grow
    rw [if_neg (by simp [GoSlice.cap]; omega)]
    norm_num
  · have hle : N ≤ growSize C0 N := by
      simp only [growSize, MinBufferSize]
      split <;> omega
    refine ⟨growSize C0 N, hle, ?_⟩
    unfold GoSlice.grow
    rw [if_pos (by simp [GoSlice.cap]; omega)]
    simp [GoSlice.cap, GoSlice.content, hA, hle]

theorem read_nil (v : Buf) : v.read [] = some (([], 0, none), v) := by
  simp [Buf.read]

set_option maxRecDepth 4096 in
/-- C4: the handle `Create` returns on a new path is read-write with the fresh
empty buffer `freshBuf`; and for every byte sequence `p`, writing `p` through
a fresh handle, seeking back to offset 0 and reading `p.length` bytes through
the same handle succeeds and returns exactly the bytes of `p`, unchanged and
in order. -/
theorem c4_write_seek_read_roundtrip :
    ((createM memFSinit [47, 120]).map (fun r =>
        match r.1 with
        | .ok h => some h
        | .error _ => none) = some (some ⟨[47, 120], Access.rw, freshBuf⟩))
    ∧ ∀ (p : List Nat), ∃ v1 v2 v3,
        freshBuf.write (fun _ => true) p = some ((p.length, none), v1)
        ∧ v1.seek 0 0 = ((0, none), v2)
        ∧ v2.read (List.replicate p.length 0) = some ((p, p.length, none), v3) := by
  constructor
  · decide
  · intro p
    obtain ⟨C, hC, hgrow⟩ := grow_zeros (fun _ => true) MinBufferSize p.length (fun _ => rfl)
    have hwrite : freshBuf.write (fun _ => true) p =
        some ((p.length, none),
          ⟨⟨p ++ List.replicate (C - p.length) 0, p.length⟩, p.length⟩) := by
      have hg : freshBuf.buf.grow (fun _ => true) p.length =
          GrowRes.ok ⟨List.replicate C 0, p.length⟩ := hgrow
      simp only [Buf.write, hg]
      rw [if_neg (by simp [freshBuf])]
      simp only [freshBuf, GoSlice.writeAt, Int.toNat_zero, List.take_zero,
        Nat.sub_zero, Nat.zero_add, min_self, List.nil_append, List.take_length,
        List.drop_replicate, Int.zero_add]
    have hseek : Buf.seek ⟨⟨p ++ List.replicate (C - p.length) 0, p.length⟩,
        (p.length : Int)⟩ 0 0 =
        ((0, none), ⟨⟨p ++ List.replicate (C - p.length) 0, p.length⟩, 0⟩) := by
      rw [seek_dispatch _ 0 0 (Or.inl rfl)]
      have h0 : seekTarget ⟨⟨p ++ List.replicate (C - p.length) 0, p.length⟩,
          (p.length : Int)⟩ 0 0 = 0 := by simp [seekTarget]
      rw [h0]
      exact seekAbs_ok _ 0 (le_refl 0) (Int.ofNat_nonneg _)
    by_cases hp : p.length = 0
    · have hpnil : p = [] := List.length_eq_zero.mp hp
      subst hpnil
      have hread := read_nil ⟨⟨[] ++ List.replicate (C - List.length ([] : List Nat)) 0,
        List.length ([] : List Nat)⟩, 0⟩
      exact ⟨_, _, _, hwrite, hseek, hread⟩
    · have hread : Buf.read ⟨⟨p ++ List.replicate (C - p.length) 0, p.length⟩, 0⟩
          (List.replicate p.length 0) =
          some ((p, p.length, none),
            ⟨⟨p ++ List.replicate (C - p.length) 0, p.length⟩, (p.length : Int)⟩) := by
        have hlen : (List.replicate p.length 0).length ≠ 0 := by
          rw [List.length_replicate]
          exact hp
        have hcontent : (GoSlice.content ⟨p ++ List.replicate (C - p.length) 0,
            p.length⟩) = p := by
          simp only [GoSlice.content]
          exact List.take_left p (List.replicate (C - p.length) 0)
        simp only [Buf.read, if_neg hlen]
        rw [if_neg (by
          show ¬((p.length : Int) ≤ (0 : Int))
          omega)]
        rw [if_neg (by norm_num)]
        simp only [Int.toNat_zero, List.drop_zero, hcontent, List.length_replicate,
          min_self, List.take_length, List.drop_replicate, Nat.sub_self,
          List.replicate_zero, List.append_nil, Int.zero_add]
      exact ⟨_, _, _, hwrite, hseek, hread⟩

theorem alGet_alSet_self {κ ν : Type} [DecidableEq κ] (l : List (κ × ν)) (k : κ) (v : ν) :
    alGet (alSet l k v) k = some v := by
  induction l with
  | nil => simp [alSet, alGet]
  | cons kv rest ih =>
    rcases kv with ⟨k', v'⟩
    by_cases h : k' = k
    · simp [alSet, alGet, h]
    · simp only [alSet, if_neg h]
      simp only [alGet, if_neg h]
      exact ih

theorem alGet_alSet_ne {κ ν : Type} [DecidableEq κ] (l : List (κ × ν)) (k k' : κ) (v : ν)
    (h : k ≠ k') : alGet (alSet l k v) k' = alGet l k' := by
  induction l with
  | nil => simp [alSet, alGet, h]
  | cons kv rest ih =>
    rcases kv with ⟨k0, v0⟩
    by_cases h0 : k0 = k
    · subst h0
      simp [alSet, alGet, h]
    · simp only [alSet, if_neg h0, alGet]
      by_cases h1 : k0 = k'
      · simp [h1]
      · simp [h1, ih]

/-- `memFS.fileInfo` does not change the filesystem when it finds the target:
the lazy child-map allocation happens only in the not-found branch. -/
theorem fileInfoRes_found_pure (fs : FS) (p : GoStr) :
    ∀ (pp : Option Nat) (nid : Nat),
    (fileInfoRes fs p).1 = Except.ok (pp, some nid) → (fileInfoRes fs p).2 = fs := by
  intro pp nid h
  unfold fileInfoRes at h ⊢
  by_cases h1 : SplitPath (cleanPath p) = [[]]
  · simp [h1]
  · by_cases h2 : SplitPath (cleanPath p) = [[dotB]]
    · simp [h1, h2]
    · simp only [if_neg h1, if_neg h2] at h ⊢
      split
      · rfl
      · rename_i pid hr
        split
        · rfl
        · rename_i nd hn
          split
          · rename_i cl hc
            split
            · rfl
            · rfl
          · rename_i hc
            exfalso
            simp only [hr, hn, hc] at h
            rcases h with ⟨h⟩

/-- `fileInfo.file` on a node without content: the only state change is the
fresh buffer installed on that node. -/
theorem mkHandle_state (fs : FS) (nid : Nat) (flag : Nat) (nd : NodeData)
    (hn : fs.node nid = some nd) (hb : nd.nbuf = none) :
    ∀ r, mkHandle fs nid flag = some r →
      r.2 = fs.setNode nid { nd with nbuf := some ⟨List.replicate MinBufferSize 0, 0⟩ } := by
  intro r hr
  unfold mkHandle at hr
  rw [hn] at hr
  simp only [hb, true_or, if_pos, ite_true, eq_self_iff_true] at hr
  rcases habs : absPath
      (fs.setNode nid { nd with nbuf := some ⟨List.replicate MinBufferSize 0, 0⟩ })
      ((fs.setNode nid
        { nd with nbuf := some ⟨List.replicate MinBufferSize 0, 0⟩ }).nodes.length + 1)
      nid with _ | nm
  · rw [habs] at hr
    exact Option.noConfusion hr
  · rw [habs] at hr
    injection hr with hr1
    rw [← hr1]

/-- C7 (amended): let the target of `name` resolve to an existing directory
node `nid` under parent `pid`. Then `OpenFile` fails `IsDirectory` (tree
untouched) only when `create` is NOT set. With `create` set and `truncate`
clear it fails `AlreadyExists` (tree untouched) — not `IsDirectory`. With
`create` and `truncate` both set it does not fail at all: whenever the call
returns (the model's `none` covers only Go runtime panics, unreachable here),
it succeeds, and the parent's child map afterwards maps the base name to a
fresh non-directory file node — the directory node and its subtree have been
replaced, contrary to the original claim. -/
theorem c7_openfile_existing_directory (fs : FS) (name : GoStr) (flag perm : Nat)
    (pid nid : Nat) (nd pnd : NodeData) (cl : List (GoStr × Nat))
    (hres1 : (fileInfoRes fs (cleanPath name)).1 = Except.ok (some pid, some nid))
    (hnode : fs.node nid = some nd) (hdir : nd.dir = true)
    (hpnode : fs.node pid = some pnd) (hpchilds : pnd.childs = some cl)
    (hfresh : fs.node fs.next = none) :
    (hasFlagB O_CREATE flag = false →
      openFileM fs name flag perm = some (.error FsErr.isDirectory, fs))
    ∧ (hasFlagB O_CREATE flag = true → hasFlagB O_TRUNC flag = false →
      openFileM fs name flag perm = some (.error FsErr.exist, fs))
    ∧ (hasFlagB O_CREATE flag = true → hasFlagB O_TRUNC flag = true →
      (∀ (e : FsErr) (fs2 : FS), openFileM fs name flag perm ≠ some (.error e, fs2))
      ∧ (∀ (h : FHandle) (fs2 : FS), openFileM fs name flag perm = some (.ok h, fs2) →
          ∃ pnd2 nnd2, fs2.node pid = some pnd2
            ∧ alGet (pnd2.childs.getD []) (basePath (cleanPath name)) = some fs.next
            ∧ fs2.node fs.next = some nnd2 ∧ nnd2.dir = false)) := by
  have hres2 := fileInfoRes_found_pure fs (cleanPath name) (some pid) nid hres1
  have hres : fileInfoRes fs (cleanPath name) = (Except.ok (some pid, some nid), fs) :=
    calc fileInfoRes fs (cleanPath name)
        = ((fileInfoRes fs (cleanPath name)).1, (fileInfoRes fs (cleanPath name)).2) := rfl
      _ = (Except.ok (some pid, some nid), fs) := by rw [hres1, hres2]
  have hpidne : pid ≠ fs.next := by
    intro hEq
    rw [hEq, hfresh] at hpnode
    exact Option.noConfusion hpnode
  refine ⟨?_, ?_, ?_⟩
  · intro hcf
    simp only [openFileM, hres]
    rw [if_neg (by simp [hcf])]
    simp [hnode, hdir]
  · intro hct htf
    simp only [openFileM, hres]
    rw [if_pos (by simp [hct])]
    rw [if_pos ⟨rfl, by simp [htf]⟩]
  · intro hct htt
    have hform : openFileM fs name flag perm =
        (mkHandle
          { nodes := alSet (alSet fs.nodes pid
              { pnd with childs := some (alSet cl (basePath (cleanPath name)) fs.next) })
              fs.next ⟨basePath (cleanPath name), false, perm, some pid, none, none⟩,
            root := fs.root, wd := fs.wd, next := fs.next + 1 } fs.next flag).map
          (fun r => (Except.ok r.1, r.2)) := by
      simp only [openFileM, hres]
      rw [if_pos (by simp [hct])]
      rw [if_neg (by simp [htt])]
      simp only [hpnode, hpchilds]
    constructor
    · intro e fs2 heq
      rw [hform] at heq
      rcases hmk : mkHandle
          { nodes := alSet (alSet fs.nodes pid
              { pnd with childs := some (alSet cl (basePath (cleanPath name)) fs.next) })
              fs.next ⟨basePath (cleanPath name), false, perm, some pid, none, none⟩,
            root := fs.root, wd := fs.wd, next := fs.next + 1 } fs.next flag with _ | r
      · rw [hmk] at heq
        exact Option.noConfusion heq
      · rw [hmk] at heq
        simp at heq
    · intro h fs2 heq
      rw [hform] at heq
      rcases hmk : mkHandle
          { nodes := alSet (alSet fs.nodes pid
              { pnd with childs := some (alSet cl (basePath (cleanPath name)) fs.next) })
              fs.next ⟨basePath (cleanPath name), false, perm, some pid, none, none⟩,
            root := fs.root, wd := fs.wd, next := fs.next + 1 } fs.next flag with _ | r
      · rw [hmk] at heq
        exact Option.noConfusion heq
      · rw [hmk] at heq
        have hr2 : r.2 = fs2 := by
          injection heq with heq1
          exact congrArg Prod.snd heq1
        have hstate := mkHandle_state _ fs.next flag
          ⟨basePath (cleanPath name), false, perm, some pid, none, none⟩
          (by
            show FS.node _ fs.next = _
            unfold FS.node
            exact alGet_alSet_self _ fs.next _) rfl r hmk
        rw [hstate] at hr2
        subst hr2
        refine ⟨{ pnd with childs := some (alSet cl (basePath (cleanPath name)) fs.next) },
          ⟨basePath (cleanPath name), false, perm, some pid, none,
            some ⟨List.replicate MinBufferSize 0, 0⟩⟩, ?_, ?_, ?_, rfl⟩
        · show alGet (alSet _ fs.next _) pid = _
          rw [alGet_alSet_ne _ _ _ _ (Ne.symm hpidne)]
          show alGet (alSet (alSet fs.nodes pid _) fs.next _) pid = _
          rw [alGet_alSet_ne _ _ _ _ (Ne.symm hpidne)]
          exact alGet_alSet_self _ pid _
        · simp only [Option.getD_some]
          exact alGet_alSet_self _ _ _
        · show alGet (alSet _ fs.next _) fs.next = _
          exact alGet_alSet_self _ fs.next _

/-- The filesystem after `Mkdir("/d", 0700)` on a fresh `MemFS`. -/
def c7fs : FS := ((mkdirM memFSinit [47, 100] 448).getD (none, memFSinit)).2

set_option maxRecDepth 4096 in
/-- C7 counterexample: on a filesystem holding the directory `/d`, `Create`
(`OpenFile` with `create|truncate|read-write = 578`) does NOT fail
`IsDirectory`: it succeeds, and afterwards the root's child map binds "d" to
the fresh node 2, which is a regular file — the directory node 1 has been
replaced, and the tree was modified. -/
theorem c7_counterexample_create_replaces_directory :
    mkdirM memFSinit [47, 100] 448 = some (none, c7fs)
    ∧ (statM c7fs [47, 100]).1 = Except.ok ⟨[100], true⟩
    ∧ (createM c7fs [47, 100]).map (fun r =>
        match r.1 with
        | .ok _ => true
        | .error _ => false) = some true
    ∧ (createM c7fs [47, 100]).map
        (fun r => (r.2.node 2).map NodeData.dir) = some (some false)
    ∧ (createM c7fs [47, 100]).map
        (fun r => (r.2.node 0).map (fun nd0 => alGet (nd0.childs.getD []) [100])) =
      some (some (some 2)) := by
  refine ⟨rfl, by decide, by decide, by decide, by decide⟩

theorem c7_openfile_existing_directory_witness :
    openFileM c7fs [47, 100] 0 0 = some (.error FsErr.isDirectory, c7fs)
    ∧ openFileM c7fs [47, 100] 64 438 = some (.error FsErr.exist, c7fs)
    ∧ ∀ (e : FsErr) (fs2 : FS), openFileM c7fs [47, 100] 578 438 ≠ some (.error e, fs2) :=
  ⟨(c7_openfile_existing_directory c7fs [47, 100] 0 0 0 1
      ⟨[100], true, 448, some 0, none, none⟩
      ⟨[47], true, 0, none, some [([100], 1)], none⟩ [([100], 1)]
      (by decide) rfl rfl rfl rfl rfl).1 (by decide),
   (c7_openfile_existing_directory c7fs [47, 100] 64 438 0 1
      ⟨[100], true, 448, some 0, none, none⟩
      ⟨[47], true, 0, none, some [([100], 1)], none⟩ [([100], 1)]
      (by decide) rfl rfl rfl rfl rfl).2.1 (by decide) (by decide),
   ((c7_openfile_existing_directory c7fs [47, 100] 578 438 0 1
      ⟨[100], true, 448, some 0, none, none⟩
      ⟨[47], true, 0, none, some [([100], 1)], none⟩ [([100], 1)]
      (by decide) rfl rfl rfl rfl rfl).2.2 (by decide) (by decide)).1⟩

/-- C8 (amended): `ReadDir` on a path whose target is a regular file fails
with the very same `os.ErrNotExist` error that an absent target produces —
the code has no separate `NotADirectory` kind (`fi == nil || !fi.dir` share
one branch). On a directory it returns all direct children's descriptors
sorted ascending bytewise by name. -/
theorem c8_readdir_error_kinds_and_sorting (fs : FS) (p : GoStr) :
    (∀ (pp : Option Nat) (fs1 : FS),
      fileInfoRes fs (cleanPath p) = (.ok (pp, none), fs1) →
      readDirM fs p = (.error FsErr.notExist, fs1))
    ∧ (∀ (pp : Option Nat) (nid : Nat) (nd : NodeData) (fs1 : FS),
        fileInfoRes fs (cleanPath p) = (.ok (pp, some nid), fs1) →
        fs1.node nid = some nd → nd.dir = false →
        readDirM fs p = (.error FsErr.notExist, fs1))
    ∧ (∀ (pp : Option Nat) (nid : Nat) (nd : NodeData) (fs1 : FS),
        fileInfoRes fs (cleanPath p) = (.ok (pp, some nid), fs1) →
        fs1.node nid = some nd → nd.dir = true →
        ∃ l, readDirM fs p = (.ok l, fs1)
          ∧ List.Pairwise (fun a b => strLe a.fname b.fname = true) l
          ∧ List.Perm l ((nd.childs.getD []).filterMap
              (fun c => (fs1.node c.2).map (fun cd => (⟨cd.name, cd.dir⟩ : FInfoLite))))) := by
  refine ⟨?_, ?_, ?_⟩
  · intro pp fs1 hres
    simp only [readDirM, hres]
  · intro pp nid nd fs1 hres hnode hdf
    simp only [readDirM, hres, hnode]
    simp [hdf]
  · intro pp nid nd fs1 hres hnode hdt
    refine ⟨_, ?_, sortByKey_pairwise _ _, sortByKey_perm _ _⟩
    simp only [readDirM, hres, hnode]
    simp [hdt]

/-- The filesystem after `Create("/f")` on a fresh `MemFS` (root plus one
regular file `f`). -/
def c8fs : FS := ((createM memFSinit [47, 102]).getD (Except.error FsErr.notExist, memFSinit)).2

set_option maxRecDepth 4096 in
/-- C8 counterexample: with `/f` a regular file, `ReadDir("/f")` returns the
same `NotExist` error value as `ReadDir("/g")` on the absent `/g` — there is
no distinct `NotADirectory` error kind. -/
theorem c8_counterexample_same_error_kind :
    (statM c8fs [47, 102]).1 = Except.ok ⟨[102], false⟩
    ∧ readDirM c8fs [47, 102] = (.error FsErr.notExist, c8fs)
    ∧ (statM c8fs [47, 103]).1 = Except.error FsErr.notExist
    ∧ readDirM c8fs [47, 103] = (.error FsErr.notExist, c8fs) := by
  refine ⟨by decide, by decide, by decide, by decide⟩

set_option maxRecDepth 4096 in
theorem c8_readdir_error_kinds_and_sorting_witness :
    readDirM c8fs [47, 102] = (.error FsErr.notExist, c8fs)
    ∧ readDirM c8fs [47, 103] = (.error FsErr.notExist, c8fs)
    ∧ ∃ l, readDirM c8fs [47] = (.ok l, c8fs)
        ∧ List.Pairwise (fun a b => strLe a.fname b.fname = true) l
        ∧ List.Perm l [⟨[102], false⟩] :=
  ⟨(c8_readdir_error_kinds_and_sorting c8fs [47, 102]).2.1 (some 0) 1
      ⟨[102], false, 438, some 0, none, some ⟨List.replicate MinBufferSize 0, 0⟩⟩ c8fs
      (by decide) (by decide) rfl,
   (c8_readdir_error_kinds_and_sorting c8fs [47, 103]).1 (some 0) c8fs (by decide),
   (c8_readdir_error_kinds_and_sorting c8fs [47]).2.2 none 0
      ⟨[47], true, 0, none, some [([102], 1)], none⟩ c8fs
      (by decide) (by decide) rfl⟩

/-- The filesystem after `Mkdir("/a", 0700)` on a fresh `MemFS`. -/
def c9fs1 : FS := ((mkdirM memFSinit [47, 97] 448).getD (none, memFSinit)).2

/-- The filesystem after the additional `Rename("/a", "/a/b")`. -/
def c9fs2 : FS := ((renameM c9fs1 [47, 97] [47, 97, 47, 98]).getD (none, memFSinit)).2

/-- C9 (code bug): the strict-hierarchy invariant holds after `Mkdir("/a")`
but `Rename("/a", "/a/b")` — a rename of a directory to a destination inside
its own subtree — succeeds (returns `nil`) and destroys it: afterwards node 1
(the old `/a`) is its own parent and its own child (its own ancestor;
`AbsPath` would recurse forever on it), and the root's child map is empty, so
the whole subtree is detached from the root. -/
theorem c9_rename_into_own_subtree_breaks_hierarchy :
    mkdirM memFSinit [47, 97] 448 = some (none, c9fs1)
    ∧ strictHierarchy c9fs1 = true
    ∧ renameM c9fs1 [47, 97] [47, 97, 47, 98] = some (none, c9fs2)
    ∧ strictHierarchy c9fs2 = false
    ∧ (c9fs2.node 1).map NodeData.parent = some (some 1)
    ∧ (c9fs2.node 1).map (fun nd => alGet (nd.childs.getD []) [98]) = some (some 1)
    ∧ (c9fs2.node c9fs2.root).map (fun nd => nd.childs.getD []) = some [] := by
  refine ⟨rfl, by decide, rfl, by decide, by decide, by decide, by decide⟩
